import Mathlib

/-!
Verification of the pexels-cli core (request retry/backoff, pagination
aggregation, response shaping, field projection) against a shallow Lean
embedding of the Rust sources in `src/pexels/src/`.

Modelling conventions:
* `serde_json::Value` is embedded as `Pexels.Json`; JSON numbers are embedded
  as `Int` (the claims under study only involve integer-valued numbers; float
  behavior is irrelevant to them and is not modelled).
* `serde_json::Map` is a `BTreeMap<String, Value>` (the crate's default, no
  `preserve_order` feature), embedded as an association list that the insert
  operation keeps strictly sorted by key; string order is byte/codepoint
  lexicographic order, as in Rust's `Ord for String`.
* Rust machine integers are embedded as `Nat`/`Int` with explicit `% 2 ^ w`
  (or explicit bounds checks) exactly where overflow or truncation matters.
* Effectful operations (HTTP sends, sleeps, RNG draws, log lines) are
  embedded as explicit oracles/traces: the retry loop takes the outcome of
  each send and the jitter drawn for each backoff as functions of the attempt
  counter, and returns the list of retry events (sleep duration, logged text)
  alongside its result.
* String helpers from `core`/`std` (`split`, `ends_with`, `trim_end_matches`,
  numeric `parse`) are embedded as executable character-list functions with
  the same semantics.
-/

namespace Pexels

/-! ## Character/string primitives (models of the Rust `str` operations) -/

/-- Split a character list on a separator character, keeping empty parts,
    like Rust's `str::split(char)`. -/
def splitCharsOn (sep : Char) : List Char → List (List Char)
  | [] => [[]]
  | c :: rest =>
    if c = sep then [] :: splitCharsOn sep rest
    else match splitCharsOn sep rest with
      | [] => [[c]]
      | part :: parts => (c :: part) :: parts

/-- Model of Rust `path.split('.').collect::<Vec<_>>()`. -/
def splitDot (s : String) : List String :=
  (splitCharsOn '.' s.data).map (fun cs => String.mk cs)

/-- Model of Rust `str::ends_with(pat)` for a literal pattern. -/
def strEndsWith (s pat : String) : Bool :=
  pat.data.isSuffixOf s.data

/-- Helper for `strContainsSub`: does `pat` occur in the list? -/
def occursIn (pat : List Char) : List Char → Bool
  | [] => pat.isEmpty
  | c :: rest => pat.isPrefixOf (c :: rest) || occursIn pat rest

/-- Model of Rust `str::contains(pat)` (substring containment). -/
def strContainsSub (s pat : String) : Bool :=
  occursIn pat.data s.data

/-- Strip all leading copies of the reversed pattern `"[*]"` from a reversed
    character list; helper for the model of `trim_end_matches("[*]")`. -/
def stripStarsRev : List Char → List Char
  | ']' :: '*' :: '[' :: rest => stripStarsRev rest
  | l => l

/-- Model of Rust `str::trim_end_matches("[*]")`: removes every trailing
    repetition of the pattern. -/
def trimWild (s : String) : String :=
  String.mk (stripStarsRev s.data.reverse).reverse

/-- Digit-list accumulator for the model of Rust's numeric `str::parse`. -/
def parseNatAux : List Char → Nat → Option Nat
  | [], acc => some acc
  | c :: rest, acc =>
    if c.isDigit then parseNatAux rest (acc * 10 + (c.toNat - 48)) else none

/-- Model of Rust `str::parse::<uN>` up to the overflow check: digits only,
    at least one digit, an optional leading `'+'`. -/
def parseNatChars : List Char → Option Nat
  | [] => none
  | '+' :: rest => match rest with
    | [] => none
    | _ :: _ => parseNatAux rest 0
  | c :: rest => parseNatAux (c :: rest) 0

/-- Model of Rust `str::parse::<u32>()` (overflow is an error). -/
def parseU32 (cs : List Char) : Option Nat :=
  match parseNatChars cs with
  | some n => if n < 2 ^ 32 then some n else none
  | none => none

/-- Model of Rust `str::parse::<u64>()` (overflow is an error). -/
def parseU64 (cs : List Char) : Option Nat :=
  match parseNatChars cs with
  | some n => if n < 2 ^ 64 then some n else none
  | none => none

/-- Strict lexicographic order on character lists by codepoint, the order
    underlying Rust's `Ord for String` (UTF-8 byte order coincides with
    codepoint order). -/
def charListLt : List Char → List Char → Bool
  | _, [] => false
  | [], _ :: _ => true
  | a :: as, b :: bs =>
    if a.toNat < b.toNat then true
    else if b.toNat < a.toNat then false
    else charListLt as bs

/-- Model of Rust's `Ord for String` strict order. -/
def strLt (a b : String) : Bool := charListLt a.data b.data

theorem charListLt_cons (a b : Char) (as bs : List Char) :
    charListLt (a :: as) (b :: bs) =
      if a.toNat < b.toNat then true
      else if b.toNat < a.toNat then false
      else charListLt as bs := rfl

theorem char_toNat_inj {a b : Char} (h : a.toNat = b.toNat) : a = b :=
  Char.ext (UInt32.ext h)

theorem charListLt_irrefl (l : List Char) : charListLt l l = false := by
  induction l with
  | nil => rfl
  | cons c rest ih =>
    rw [charListLt_cons, if_neg (Nat.lt_irrefl _), if_neg (Nat.lt_irrefl _), ih]

theorem strLt_irrefl (s : String) : strLt s s = false := charListLt_irrefl s.data

theorem charListLt_trans {a b c : List Char} (hab : charListLt a b = true)
    (hbc : charListLt b c = true) : charListLt a c = true := by
  induction a generalizing b c with
  | nil =>
    cases c with
    | nil =>
      cases b with
      | nil => exact hbc
      | cons y ys => exact absurd hbc (by simp [charListLt])
    | cons _ _ => rfl
  | cons x xs ih =>
    cases b with
    | nil => exact absurd hab (by simp [charListLt])
    | cons y ys =>
      cases c with
      | nil => exact absurd hbc (by simp [charListLt])
      | cons z zs =>
        rw [charListLt_cons] at hab hbc ⊢
        by_cases hxy : x.toNat < y.toNat
        · by_cases hyz : y.toNat < z.toNat
          · rw [if_pos (Nat.lt_trans hxy hyz)]
          · rw [if_neg hyz] at hbc
            by_cases hzy : z.toNat < y.toNat
            · rw [if_pos hzy] at hbc
              exact Bool.noConfusion hbc
            · have heq : y.toNat = z.toNat :=
                Nat.le_antisymm (Nat.le_of_not_lt hzy) (Nat.le_of_not_lt hyz)
              rw [if_pos (heq ▸ hxy)]
        · rw [if_neg hxy] at hab
          by_cases hyx : y.toNat < x.toNat
          · rw [if_pos hyx] at hab
            exact Bool.noConfusion hab
          · rw [if_neg hyx] at hab
            have hxyeq : x.toNat = y.toNat :=
              Nat.le_antisymm (Nat.le_of_not_lt hyx) (Nat.le_of_not_lt hxy)
            by_cases hyz : y.toNat < z.toNat
            · rw [if_pos (hxyeq ▸ hyz)]
            · rw [if_neg hyz] at hbc
              by_cases hzy : z.toNat < y.toNat
              · rw [if_pos hzy] at hbc
                exact Bool.noConfusion hbc
              · rw [if_neg hzy] at hbc
                have hyzeq : y.toNat = z.toNat :=
                  Nat.le_antisymm (Nat.le_of_not_lt hzy) (Nat.le_of_not_lt hyz)
                have h1 : ¬ x.toNat < z.toNat := by omega
                have h2 : ¬ z.toNat < x.toNat := by omega
                rw [if_neg h1, if_neg h2]
                exact ih hab hbc

theorem strLt_trans {a b c : String} (hab : strLt a b = true) (hbc : strLt b c = true) :
    strLt a c = true := charListLt_trans hab hbc

theorem charListLt_tricho (a b : List Char) :
    charListLt a b = true ∨ a = b ∨ charListLt b a = true := by
  induction a generalizing b with
  | nil =>
    cases b with
    | nil => exact Or.inr (Or.inl rfl)
    | cons _ _ => exact Or.inl rfl
  | cons x xs ih =>
    cases b with
    | nil => exact Or.inr (Or.inr rfl)
    | cons y ys =>
      by_cases hxy : x.toNat < y.toNat
      · exact Or.inl (by rw [charListLt_cons, if_pos hxy])
      · by_cases hyx : y.toNat < x.toNat
        · exact Or.inr (Or.inr (by rw [charListLt_cons, if_pos hyx]))
        · have hxyeq : x = y :=
            char_toNat_inj (Nat.le_antisymm (Nat.le_of_not_lt hyx) (Nat.le_of_not_lt hxy))
          subst hxyeq
          rcases ih ys with h | h | h
          · exact Or.inl (by rw [charListLt_cons, if_neg hxy, if_neg hyx]; exact h)
          · exact Or.inr (Or.inl (by rw [h]))
          · exact Or.inr (Or.inr (by rw [charListLt_cons, if_neg hxy, if_neg hyx]; exact h))

theorem strLt_tricho (a b : String) : strLt a b = true ∨ a = b ∨ strLt b a = true := by
  rcases charListLt_tricho a.data b.data with h | h | h
  · exact Or.inl h
  · refine Or.inr (Or.inl ?_)
    cases a; cases b
    exact congrArg String.mk h
  · exact Or.inr (Or.inr h)

theorem strLt_asymm {a b : String} (h : strLt a b = true) : strLt b a = false := by
  cases hx : strLt b a
  · rfl
  · have := strLt_trans h hx
    rw [strLt_irrefl] at this
    exact Bool.noConfusion this

theorem strLt_ne {a b : String} (h : strLt a b = true) : a ≠ b := by
  intro he
  subst he
  rw [strLt_irrefl] at h
  exact Bool.noConfusion h

/-! ## JSON values -/

/-- Shallow embedding of `serde_json::Value`. Object field lists model
    `BTreeMap` contents: well-formed values keep them strictly sorted by key
    (all map-building operations below preserve this). -/
inductive Json where
  | null
  | bool (b : Bool)
  | num (n : Int)
  | str (s : String)
  | arr (elems : List Json)
  | obj (fields : List (String × Json))

/-- Model of `Value::is_null`. -/
def Json.isNull : Json → Bool
  | .null => true
  | _ => false

/-- Model of `Value::is_object`. -/
def Json.isObj : Json → Bool
  | .obj _ => true
  | _ => false

/-- Model of `BTreeMap::get`: first match in the association list (the only
    match, on sorted-key lists). -/
def mapGet : List (String × Json) → String → Option Json
  | [], _ => none
  | (k', v') :: rest, k => if k = k' then some v' else mapGet rest k

/-- Model of `Value::get(key)` (`None` on non-objects). -/
def jget (j : Json) (k : String) : Option Json :=
  match j with
  | .obj m => mapGet m k
  | _ => none

/-- Model of `BTreeMap::insert`: replace the value at an existing key, else
    insert at the sorted position. -/
def mapPut : List (String × Json) → String → Json → List (String × Json)
  | [], k, v => [(k, v)]
  | (k', v') :: rest, k, v =>
    if strLt k k' then (k, v) :: (k', v') :: rest
    else if k = k' then (k, v) :: rest
    else (k', v') :: mapPut rest k v

/-- Insert every binding of `b` into `a` in order (the body of the loop in
    `merge` for two objects, and of the collect loops building fresh maps). -/
def mapPutAll (a b : List (String × Json)) : List (String × Json) :=
  b.foldl (fun acc kv => mapPut acc kv.1 kv.2) a

/-- The value the bindings of `b` leave at key `k` after being inserted in
    order: the last binding for `k` wins. -/
def lastGet (m : List (String × Json)) (k : String) : Option Json :=
  match m with
  | [] => none
  | kv :: rest =>
    match lastGet rest k with
    | some v => some v
    | none => if kv.1 = k then some kv.2 else none

/-- Keys strictly sorted: the invariant of `BTreeMap` contents. -/
def SortedKeys (m : List (String × Json)) : Prop :=
  List.Pairwise (fun a b => strLt a.1 b.1 = true) m

/-! ### Map lemmas -/

theorem mapGet_mapPut_self (m : List (String × Json)) (k : String) (v : Json) :
    mapGet (mapPut m k v) k = some v := by
  induction m with
  | nil => simp [mapPut, mapGet]
  | cons kv rest ih =>
    obtain ⟨k', v'⟩ := kv
    rw [mapPut]
    by_cases h1 : strLt k k' = true
    · rw [if_pos h1, mapGet, if_pos rfl]
    · rw [if_neg h1]
      by_cases h2 : k = k'
      · rw [if_pos h2, mapGet, if_pos rfl]
      · rw [if_neg h2, mapGet, if_neg h2, ih]

theorem mapGet_mapPut_ne (m : List (String × Json)) (k k' : String) (v : Json)
    (h : k' ≠ k) : mapGet (mapPut m k v) k' = mapGet m k' := by
  induction m with
  | nil => simp [mapPut, mapGet, h]
  | cons kv rest ih =>
    obtain ⟨k0, v0⟩ := kv
    rw [mapPut]
    by_cases h1 : strLt k k0 = true
    · rw [if_pos h1, mapGet, if_neg h, mapGet]
    · rw [if_neg h1]
      by_cases h2 : k = k0
      · subst h2
        rw [if_pos rfl, mapGet, if_neg h, mapGet, if_neg h]
      · rw [if_neg h2, mapGet]
        by_cases h3 : k' = k0
        · rw [if_pos h3, mapGet, if_pos h3]
        · rw [if_neg h3, mapGet, if_neg h3, ih]

theorem lastGet_cons (kv : String × Json) (rest : List (String × Json)) (k : String) :
    lastGet (kv :: rest) k =
      match lastGet rest k with
      | some v => some v
      | none => if kv.1 = k then some kv.2 else none := rfl

theorem mapGet_mapPutAll (a b : List (String × Json)) (k : String) :
    mapGet (mapPutAll a b) k =
      match lastGet b k with
      | some v => some v
      | none => mapGet a k := by
  induction b generalizing a with
  | nil => rfl
  | cons kv rest ih =>
    obtain ⟨kb, vb⟩ := kv
    have hstep : mapPutAll a ((kb, vb) :: rest) = mapPutAll (mapPut a kb vb) rest := rfl
    rw [hstep, ih, lastGet_cons]
    cases hrest : lastGet rest k with
    | some v => rfl
    | none =>
      by_cases hk : kb = k
      · subst hk
        rw [if_pos rfl, mapGet_mapPut_self]
      · rw [if_neg hk, mapGet_mapPut_ne a kb k vb (fun he => hk he.symm)]

theorem mem_mapPut (m : List (String × Json)) (k : String) (v : Json) :
    ∀ p ∈ mapPut m k v, p.1 = k ∨ p ∈ m := by
  induction m with
  | nil =>
    intro p hp
    rw [mapPut, List.mem_singleton] at hp
    exact Or.inl (by rw [hp])
  | cons kv rest ih =>
    intro p hp
    obtain ⟨k0, v0⟩ := kv
    rw [mapPut] at hp
    by_cases h1 : strLt k k0 = true
    · rw [if_pos h1, List.mem_cons] at hp
      rcases hp with he | hp
      · exact Or.inl (by rw [he])
      · exact Or.inr hp
    · rw [if_neg h1] at hp
      by_cases h2 : k = k0
      · rw [if_pos h2, List.mem_cons] at hp
        rcases hp with he | hp
        · exact Or.inl (by rw [he])
        · exact Or.inr (List.mem_cons_of_mem _ hp)
      · rw [if_neg h2, List.mem_cons] at hp
        rcases hp with he | hp
        · exact Or.inr (List.mem_cons.mpr (Or.inl he))
        · rcases ih p hp with h | h
          · exact Or.inl h
          · exact Or.inr (List.mem_cons_of_mem _ h)

theorem sortedKeys_mapPut {m : List (String × Json)} (hs : SortedKeys m)
    (k : String) (v : Json) : SortedKeys (mapPut m k v) := by
  induction m with
  | nil => exact List.pairwise_singleton _ _
  | cons kv rest ih =>
    obtain ⟨k0, v0⟩ := kv
    have hs' := hs
    rw [SortedKeys, List.pairwise_cons] at hs'
    obtain ⟨h0, hrest⟩ := hs'
    rw [SortedKeys, mapPut]
    by_cases h1 : strLt k k0 = true
    · rw [if_pos h1, List.pairwise_cons]
      refine ⟨?_, hs⟩
      intro p hp
      rcases List.mem_cons.mp hp with he | hm
      · rw [he]; exact h1
      · exact strLt_trans h1 (h0 p hm)
    · rw [if_neg h1]
      by_cases h2 : k = k0
      · subst h2
        rw [if_pos rfl, List.pairwise_cons]
        exact ⟨h0, hrest⟩
      · rw [if_neg h2, List.pairwise_cons]
        refine ⟨?_, ih hrest⟩
        intro p hp
        rcases mem_mapPut rest k v p hp with he | hm
        · rcases strLt_tricho k0 k with ht | ht | ht
          · rw [he]; exact ht
          · exact absurd ht.symm h2
          · exact absurd ht h1
        · exact h0 p hm

theorem sortedKeys_mapPutAll {a : List (String × Json)} (hs : SortedKeys a)
    (b : List (String × Json)) : SortedKeys (mapPutAll a b) := by
  induction b generalizing a with
  | nil => exact hs
  | cons kv rest ih =>
    have hstep : mapPutAll a (kv :: rest) = mapPutAll (mapPut a kv.1 kv.2) rest := rfl
    rw [hstep]
    exact ih (sortedKeys_mapPut hs kv.1 kv.2)

theorem sortedKeys_nil : SortedKeys [] := List.Pairwise.nil

theorem mapGet_eq_none_of_sorted_lt {m : List (String × Json)} (hs : SortedKeys m)
    {k : String} (h : ∀ p ∈ m, strLt k p.1 = true) : mapGet m k = none := by
  induction m with
  | nil => rfl
  | cons kv rest ih =>
    have hne : k ≠ kv.1 := strLt_ne (h kv (List.mem_cons_self _ _))
    obtain ⟨k0, v0⟩ := kv
    rw [mapGet, if_neg hne]
    rw [SortedKeys, List.pairwise_cons] at hs
    exact ih hs.2 (fun p hp => h p (List.mem_cons_of_mem _ hp))

theorem sorted_map_ext {m₁ m₂ : List (String × Json)} (h₁ : SortedKeys m₁)
    (h₂ : SortedKeys m₂) (h : ∀ k, mapGet m₁ k = mapGet m₂ k) : m₁ = m₂ := by
  induction m₁ generalizing m₂ with
  | nil =>
    cases m₂ with
    | nil => rfl
    | cons kv rest =>
      exfalso
      have hh := h kv.1
      obtain ⟨k0, v0⟩ := kv
      rw [mapGet, mapGet, if_pos rfl] at hh
      exact Option.noConfusion hh
  | cons kv rest ih =>
    obtain ⟨k1, v1⟩ := kv
    cases m₂ with
    | nil =>
      exfalso
      have hh := h k1
      rw [mapGet, mapGet, if_pos rfl] at hh
      exact Option.noConfusion hh
    | cons kv2 rest2 =>
      obtain ⟨k2, v2⟩ := kv2
      rw [SortedKeys, List.pairwise_cons] at h₁ h₂
      have hkeys : k1 = k2 := by
        rcases strLt_tricho k1 k2 with ht | ht | ht
        · exfalso
          have hget1 : mapGet ((k1, v1) :: rest) k1 = some v1 := by rw [mapGet, if_pos rfl]
          have hget2 : mapGet ((k2, v2) :: rest2) k1 = none := by
            rw [mapGet, if_neg (strLt_ne ht)]
            exact mapGet_eq_none_of_sorted_lt h₂.2
              (fun p hp => strLt_trans ht (h₂.1 p hp))
          rw [h k1, hget2] at hget1
          exact Option.noConfusion hget1
        · exact ht
        · exfalso
          have hget2 : mapGet ((k2, v2) :: rest2) k2 = some v2 := by rw [mapGet, if_pos rfl]
          have hget1 : mapGet ((k1, v1) :: rest) k2 = none := by
            rw [mapGet, if_neg (strLt_ne ht)]
            exact mapGet_eq_none_of_sorted_lt h₁.2
              (fun p hp => strLt_trans ht (h₁.1 p hp))
          rw [← h k2, hget1] at hget2
          exact Option.noConfusion hget2
      subst hkeys
      have hvals : v1 = v2 := by
        have hh := h k1
        rw [mapGet, mapGet, if_pos rfl, if_pos rfl] at hh
        exact Option.some.inj hh
      subst hvals
      have htails : rest = rest2 := by
        refine ih h₁.2 h₂.2 (fun k => ?_)
        by_cases hk : k = k1
        · subst hk
          rw [mapGet_eq_none_of_sorted_lt h₁.2 (fun p hp => h₁.1 p hp),
            mapGet_eq_none_of_sorted_lt h₂.2 (fun p hp => h₂.1 p hp)]
        · have hh := h k
          rw [mapGet, mapGet, if_neg hk, if_neg hk] at hh
          exact hh
      rw [htails]

/-! ## Field projector (`src/pexels/src/proj.rs`) -/

/-- The id-like key heuristic of `extract_ids`. -/
def isIdKey (k : String) : Bool := k = "id" || strEndsWith k "_id" || k = "ids"

/-- The url-like key heuristic of `extract_urls`. -/
def isUrlKey (k : String) : Bool :=
  strContainsSub k "url" || strContainsSub k "link" || strContainsSub k "href"

/-- Model of `extract_ids`: keep id-like top-level fields of an object
    (collected into a fresh `BTreeMap`), recurse through arrays, `Null`
    otherwise. -/
def extract_ids : Json → Json
  | .obj m => .obj (mapPutAll [] (m.filter (fun kv => isIdKey kv.1)))
  | .arr xs => .arr (xs.attach.map (fun v => extract_ids v.1))
  | _ => .null
termination_by j => sizeOf j
decreasing_by
  have h := List.sizeOf_lt_of_mem v.2
  simp only [Json.arr.sizeOf_spec]
  omega

/-- Model of `extract_urls`. -/
def extract_urls : Json → Json
  | .obj m => .obj (mapPutAll [] (m.filter (fun kv => isUrlKey kv.1)))
  | .arr xs => .arr (xs.attach.map (fun v => extract_urls v.1))
  | _ => .null
termination_by j => sizeOf j
decreasing_by
  have h := List.sizeOf_lt_of_mem v.2
  simp only [Json.arr.sizeOf_spec]
  omega

/-- Model of `extract_by_keys`. -/
def extract_by_keys (input : Json) (keys : List String) : Json :=
  match input with
  | .obj m => .obj (mapPutAll [] (m.filter (fun kv => keys.contains kv.1)))
  | .arr xs => .arr (xs.attach.map (fun v => extract_by_keys v.1 keys))
  | _ => .null
termination_by sizeOf input
decreasing_by
  have h := List.sizeOf_lt_of_mem v.2
  simp only [Json.arr.sizeOf_spec]
  omega

theorem extract_ids_obj (m : List (String × Json)) :
    extract_ids (.obj m) = .obj (mapPutAll [] (m.filter (fun kv => isIdKey kv.1))) := by
  rw [extract_ids]

theorem extract_ids_arr (xs : List Json) :
    extract_ids (.arr xs) = .arr (xs.map extract_ids) := by
  rw [extract_ids]
  simp [List.attach_map_val]

theorem extract_urls_obj (m : List (String × Json)) :
    extract_urls (.obj m) = .obj (mapPutAll [] (m.filter (fun kv => isUrlKey kv.1))) := by
  rw [extract_urls]

theorem extract_urls_arr (xs : List Json) :
    extract_urls (.arr xs) = .arr (xs.map extract_urls) := by
  rw [extract_urls]
  simp [List.attach_map_val]

theorem extract_by_keys_obj (m : List (String × Json)) (keys : List String) :
    extract_by_keys (.obj m) keys
      = .obj (mapPutAll [] (m.filter (fun kv => keys.contains kv.1))) := by
  rw [extract_by_keys]

theorem extract_by_keys_arr (xs : List Json) (keys : List String) :
    extract_by_keys (.arr xs) keys = .arr (xs.map (fun v => extract_by_keys v keys)) := by
  rw [extract_by_keys]
  simp [List.attach_map_val]

/-- Model of `merge`: replacing a `Null` destination, shallow right-biased
    object merge, and otherwise a silent no-op (the arm order mirrors the
    Rust `match`). -/
def merge (dst src : Json) : Json :=
  match dst, src with
  | _, .null => dst
  | .null, _ => src
  | .obj a, .obj b => .obj (mapPutAll a b)
  | _, _ => dst

/-- Model of `select_inner`. -/
def select_inner (input : Json) (parts : List String) : Json :=
  match parts with
  | [] => input
  | head :: tail =>
    match input with
    | .obj m =>
      if head = "*" then .null
      else if strEndsWith head "[*]" then
        match mapGet m (trimWild head) with
        | some (.arr xs) => .arr (xs.map (fun v => select_inner v tail))
        | _ => .null
      else
        match mapGet m head with
        | some v => select_inner v tail
        | none => .null
    | .arr xs =>
      if head = "[*]" || strEndsWith head "[*]" then
        .arr (xs.map (fun v => select_inner v tail))
      else .null
    | _ => .null

/-- Model of `select_path`. -/
def select_path (input : Json) (path : String) : Json :=
  select_inner input (splitDot path)

/-- Model of `make_nested`: wrap a value into the nested single-key chain of
    the path's segments. -/
def make_nested (path : String) (value : Json) : Json :=
  (splitDot path).foldr (fun part cur => .obj [(part, cur)]) value

/-- The `@files` key list. -/
def filesKeys : List String := ["video_files", "src"]

/-- The `@thumbnails` key list. -/
def thumbsKeys : List String := ["image", "thumbnail", "thumb", "tiny"]

/-- The per-selector body of `project`'s loop. -/
def proj_step (input : Json) (out : Json) (f : String) : Json :=
  if f = "@ids" then merge out (extract_ids input)
  else if f = "@urls" then merge out (extract_urls input)
  else if f = "@files" then merge out (extract_by_keys input filesKeys)
  else if f = "@thumbnails" then merge out (extract_by_keys input thumbsKeys)
  else
    let val := select_path input f
    if val.isNull then out else merge out (make_nested f val)

/-- Model of `project`. -/
def project (input : Json) (fields : List String) : Json :=
  if fields.isEmpty || fields.any (fun f => f = "@all") then input
  else fields.foldl (proj_step input) (.obj [])

/-- Is the value a plain scalar (string/number/boolean)? The predicate of the
    `matches!` in `minimal_item`'s fallback loop. -/
def isScalar : Json → Bool
  | .str _ => true
  | .num _ => true
  | .bool _ => true
  | _ => false

/-- The priority key list of `minimal_item`. -/
def minimalPrio : List String :=
  ["id", "url", "photographer", "alt", "title", "description", "duration"]

/-- Model of `minimal_item`. Iteration order of the first-scalar fallback is
    the field-list order, which on well-formed (sorted) objects is exactly
    `BTreeMap` iteration order. -/
def minimal_item (original : Json) : Json :=
  match original with
  | .obj m =>
    let o := minimalPrio.foldl (fun o k =>
      match mapGet m k with
      | some v => mapPut o k v
      | none => o) []
    let o2 :=
      if o.isEmpty then
        match m.find? (fun kv => isScalar kv.2) with
        | some kv => mapPut [] kv.1 kv.2
        | none => []
      else o
    .obj o2
  | _ => original

/-- Model of `ensure_non_empty_item`. -/
def ensure_non_empty_item (projected original : Json) : Json :=
  match projected with
  | .obj [] => minimal_item original
  | _ => projected

/-- Model of `project_item_with_fallback`. -/
def project_item_with_fallback (item : Json) (fields : List String) : Json :=
  ensure_non_empty_item (project item fields) item

/-- Model of `project_items_with_fallback`. -/
def project_items_with_fallback (items : List Json) (fields : List String) : List Json :=
  items.map (fun it => project_item_with_fallback it fields)

/-! ## Backoff calculator (`src/pexels/src/util.rs`) -/

/-- Saturation at `u64::MAX`, the effect of Rust's saturating u64 ops. -/
def u64sat (n : Nat) : Nat := min n (2 ^ 64 - 1)

/-- `base.saturating_mul(2u64.saturating_pow(attempt))` with `base = 100`. -/
def backoffExp (attempt : Nat) : Nat := u64sat (100 * u64sat (2 ^ attempt))

/-- Model of `backoff_delay` in milliseconds, release-mode semantics: the
    unchecked `exp + jitter` u64 addition wraps. The RNG draw
    `gen_range(0..=exp/2)` is determinized by reducing the oracle value
    `draw` into the sampled range (every in-range jitter is realizable). -/
def backoff_delay (attempt : Nat) (draw : Nat) : Nat :=
  let exp := backoffExp attempt
  let jitter := draw % (exp / 2 + 1)
  min ((exp + jitter) % 2 ^ 64) 5000

/-- Model of `backoff_delay` under checked (debug-mode) arithmetic: `none`
    models the overflow panic of the `exp + jitter` addition. -/
def backoff_delay_checked (attempt : Nat) (draw : Nat) : Option Nat :=
  let exp := backoffExp attempt
  let jitter := draw % (exp / 2 + 1)
  if exp + jitter < 2 ^ 64 then some (min (exp + jitter) 5000) else none

/-- Modelled from the spec (for comparison with the code): `exponential`
    saturating and "clamped to the ceiling before use", jitter drawn from
    `[0, exponential/2]`, result `min(exponential + jitter, 5000)`. -/
def backoff_delay_spec (attempt : Nat) (draw : Nat) : Nat :=
  let exp := min (backoffExp attempt) 5000
  let jitter := draw % (exp / 2 + 1)
  min (exp + jitter) 5000

/-! ## Retrying request executor (`src/pexels/src/api.rs`, `req`) -/

/-- Outcome of one `self.http.get(..).send().await`: an HTTP response (with
    its optional `Retry-After` header and body), or a transport-level error
    with its display text. -/
inductive SendResult where
  | resp (status : Nat) (retryAfter : Option String) (body : Json)
  | err (msg : String)

/-- One retry iteration of the loop in `req`: the warn-log content and the
    slept delay (ms). -/
inductive RetryEv where
  | httpRetry (status : Nat) (delayMs : Nat)
  | transportRetry (logged : String) (delayMs : Nat)

/-- The slept delay of a retry event. -/
def RetryEv.delay : RetryEv → Nat
  | .httpRetry _ d => d
  | .transportRetry _ d => d

/-- Terminal outcome of `req`: parsed body, HTTP error (carrying the status;
    the yaml-serialized error body built by `http_error` is not modelled, no
    claim concerns its content), or the terminal transport error carrying
    `anyhow!(e)`'s display text. -/
inductive ReqOutcome where
  | success (body : Json)
  | httpError (status : Nat)
  | transportError (msg : String)

/-- Model of `redact`: replace every ASCII-graphic character (Rust
    `char::is_ascii_graphic`, i.e. `'!'..='~'`) with `'*'`. -/
def redact (s : String) : String :=
  String.mk (s.data.map (fun c => if 0x21 ≤ c.toNat ∧ c.toNat ≤ 0x7E then '*' else c))

/-- Model of `retry_after_delay` in milliseconds: caller override, else the
    parseable `Retry-After` header, else the computed backoff. -/
def retry_after_delay (retryAfter : Option String) (attempt : Nat)
    (overrideSecs : Option Nat) (draw : Nat) : Nat :=
  match overrideSecs with
  | some ov => ov * 1000
  | none =>
    match retryAfter with
    | some h =>
      match parseU64 h.data with
      | some secs => secs * 1000
      | none => backoff_delay attempt draw
    | none => backoff_delay attempt draw

/-- The retry loop of `req`, from the state where the attempt counter is
    `attempt`. `send` gives the outcome of the send performed at each value
    of the counter, `draw` the RNG draw of the backoff computed at each
    (post-increment) counter value. `fuel` only bounds the recursion; with
    `fuel = maxRetries - attempt` it never runs out. Returns the retry trace
    and the terminal outcome. -/
def req_go (maxRetries : Nat) (overrideSecs : Option Nat) (send : Nat → SendResult)
    (draw : Nat → Nat) (attempt : Nat) (fuel : Nat) : List RetryEv × ReqOutcome :=
  match send attempt with
  | .resp status ra body =>
    if 200 ≤ status ∧ status ≤ 299 then ([], .success body)
    else if (status = 429 ∨ (500 ≤ status ∧ status ≤ 599)) ∧ attempt < maxRetries then
      match fuel with
      | 0 => ([], .httpError status)
      | fuel' + 1 =>
        let attempt' := attempt + 1
        let d := retry_after_delay ra attempt' overrideSecs (draw attempt')
        let r := req_go maxRetries overrideSecs send draw attempt' fuel'
        (.httpRetry status d :: r.1, r.2)
    else ([], .httpError status)
  | .err msg =>
    if attempt < maxRetries then
      match fuel with
      | 0 => ([], .transportError msg)
      | fuel' + 1 =>
        let attempt' := attempt + 1
        let d := backoff_delay attempt' (draw attempt')
        let r := req_go maxRetries overrideSecs send draw attempt' fuel'
        (.transportRetry (redact msg) d :: r.1, r.2)
    else ([], .transportError msg)

/-- Model of `req`: the loop started with `attempt = 0`. -/
def req (maxRetries : Nat) (overrideSecs : Option Nat) (send : Nat → SendResult)
    (draw : Nat → Nat) : List RetryEv × ReqOutcome :=
  req_go maxRetries overrideSecs send draw 0 maxRetries

/-- Attempts made by a run of `req`: one send per retry event plus the
    terminal send. -/
def attemptsMade (run : List RetryEv × ReqOutcome) : Nat := run.1.length + 1

/-! ## Pagination aggregator (`src/pexels/src/api.rs`, `req_paginated`) -/

/-- The two pagination-relevant CLI options (`--limit`, `--max-pages`),
    u32-valued. -/
structure PageCli where
  limit : Option Nat
  max_pages : Option Nat

/-- `u32::MAX`, the default for an unset limit or page cap. -/
def u32MAX : Nat := 2 ^ 32 - 1

/-- `resp.get("next_page").and_then(|v| v.as_str())`. -/
def getNextPage (resp : Json) : Option String :=
  match jget resp "next_page" with
  | some (.str s) => some s
  | _ => none

/-- The first-page metadata copy: every top-level field that is neither one
    of the `item_keys` input keys nor `"next_page"` is inserted into the
    aggregate. -/
def copy_first_page_meta (agg : List (String × Json)) (resp : Json)
    (item_keys : List (String × String)) : List (String × Json) :=
  match resp with
  | .obj m =>
    m.foldl (fun acc kv =>
      if item_keys.any (fun ik => ik.1 = kv.1) || kv.1 = "next_page" then acc
      else mapPut acc kv.1 kv.2) agg
  | _ => agg

/-- The inner push loop: append items one at a time while
    `collected < limit`, counting each push. -/
def push_items (dest : List Json) (collected limit : Nat) (items : List Json) :
    List Json × Nat :=
  items.foldl (fun st item =>
    if st.2 < limit then (st.1 ++ [item], st.2 + 1) else st) (dest, collected)

/-- The per-page array merge over all `(in_key, out_key)` pairs. The Rust
    code unwraps the aggregate's `out_key` entry as an array; the non-array
    case (a panic in Rust) cannot arise at the call sites, where
    `in_key = out_key`, and is modelled as a no-op. -/
def merge_arrays (agg : List (String × Json)) (resp : Json)
    (item_keys : List (String × String)) (collected limit : Nat) :
    List (String × Json) × Nat :=
  item_keys.foldl (fun st ik =>
    match jget resp ik.1 with
    | some (.arr items) =>
      match mapGet st.1 ik.2 with
      | some (.arr dest) =>
        let r := push_items dest st.2 limit items
        (mapPut st.1 ik.2 (.arr r.1), r.2)
      | _ => st
    | _ => st) (agg, collected)

/-- The pagination loop of `req_paginated`. `fetch` models `self.req` (the
    `?` on its result propagates failures), `url_parse` models the external
    `Url::parse` (`none` = unparseable). The result carries the aggregate
    object's fields and the number of page requests issued. `fuel` only
    bounds the recursion; since `pages` grows by one per iteration and the
    loop stops at `max_pages`, `fuel = max_pages + 1` never runs out. -/
def req_paginated_go (fetch : String × List (String × String) → Except String Json)
    (url_parse : String → Option String) (item_keys : List (String × String))
    (limit max_pages : Nat) :
    Option (String × List (String × String)) → Nat → Nat → List (String × Json) →
      Nat → Nat → Except String (List (String × Json) × Nat)
  | none, _, _, agg, nreq, _ => .ok (agg, nreq)
  | some (u, q), pages, collected, agg, nreq, fuel =>
    if pages ≥ max_pages || collected ≥ limit then .ok (agg, nreq)
    else
      match fuel with
      | 0 => .ok (agg, nreq)
      | fuel' + 1 =>
        match fetch (u, q) with
        | .error e => .error e
        | .ok resp =>
          let agg1 := if pages = 0 then copy_first_page_meta agg resp item_keys else agg
          let st := merge_arrays agg1 resp item_keys collected limit
          let pages' := pages + 1
          if st.2 ≥ limit || pages' ≥ max_pages then .ok (st.1, nreq + 1)
          else
            match getNextPage resp with
            | some s =>
              match url_parse s with
              | some u2 =>
                req_paginated_go fetch url_parse item_keys limit max_pages
                  (some (u2, [])) pages' st.2 st.1 (nreq + 1) fuel'
              | none => .ok (st.1, nreq + 1)
            | none => .ok (st.1, nreq + 1)

/-- The seeded aggregate: an empty array per output key. -/
def seed_aggregate (item_keys : List (String × String)) : List (String × Json) :=
  item_keys.foldl (fun acc ik => mapPut acc ik.2 (.arr [])) []

/-- Model of `req_paginated`. -/
def req_paginated (fetch : String × List (String × String) → Except String Json)
    (url_parse : String → Option String) (url : String)
    (qp : List (String × String)) (cli : PageCli)
    (item_keys : List (String × String)) :
    Except String (List (String × Json) × Nat) :=
  let limit := cli.limit.getD u32MAX
  let max_pages := cli.max_pages.getD u32MAX
  req_paginated_go fetch url_parse item_keys limit max_pages
    (some (url, qp)) 0 0 (seed_aggregate item_keys) 0 (max_pages + 1)

/-! ## Output shaping (`src/pexels/src/output.rs`, `src/pexels/src/cli.rs`) -/

/-- The query part of a URL character list: everything after the first `'?'`
    and before the following `'#'`. This models what the `url` crate's
    parse/join + `query_pairs` expose for the URLs at hand; percent-decoding
    (a no-op on the inputs of every claim) is not modelled. -/
def queryChars : List Char → List Char
  | [] => []
  | '?' :: rest => rest.takeWhile (fun c => c ≠ '#')
  | _ :: rest => queryChars rest

/-- Split a query pair at the first `'='` (key, value), as `query_pairs`
    does. -/
def splitFirstEq : List Char → List Char × List Char
  | [] => ([], [])
  | '=' :: rest => ([], rest)
  | c :: rest =>
    let kv := splitFirstEq rest
    (c :: kv.1, kv.2)

/-- The scan loop of `parse_page_number`: the first `page` pair whose value
    parses as `u32` wins; a `page` pair with an unparseable value is skipped
    and scanning continues. -/
def find_page : List (List Char) → Option Nat
  | [] => none
  | pair :: rest =>
    let kv := splitFirstEq pair
    if kv.1 = "page".data then
      match parseU32 kv.2 with
      | some p => some p
      | none => find_page rest
    else find_page rest

/-- Model of `parse_page_number`: extract the integer `page` query parameter
    of a URL string. -/
def parse_page_number (url : String) : Option Nat :=
  find_page (splitCharsOn '&' (queryChars url.data))

/-- Model of `wrap_ok`. -/
def wrap_ok (data : Json) (meta : Option Json) : Json :=
  let metaObj :=
    match meta with
    | some (.obj m) => Json.obj m
    | some v => v
    | none => Json.obj []
  let metaObj' := if metaObj.isObj then metaObj else Json.obj []
  Json.obj (mapPut (mapPut [] "data" data) "meta" metaObj')

/-- `Value::as_u64`: integer numbers in `[0, 2^64)` (floats, not modelled,
    always give `None`). -/
def as_u64 : Json → Option Nat
  | .num n => if 0 ≤ n ∧ n < 2 ^ 64 then some n.toNat else none
  | _ => none

/-- `Value::as_str`. -/
def as_str : Json → Option String
  | .str s => some s
  | _ => none

/-- The next/prev cursor normalization in `shape_output`:
    `input.get(key).and_then(|v| v.as_u64().map(|u| u as u32).or_else(|| v.as_str().and_then(parse_page_number)))`.
    The `as u32` cast truncates mod `2^32`. -/
def page_cursor (input : Json) (key : String) : Option Nat :=
  match jget input key with
  | some v =>
    match as_u64 v with
    | some u => some (u % 2 ^ 32)
    | none =>
      match as_str v with
      | some s => parse_page_number s
      | none => none
  | none => none

/-- The data-extraction scan of `shape_output`: the first of the known plural
    keys holding an array value. -/
def firstArrKey (m : List (String × Json)) : List String → Option (List Json)
  | [] => none
  | k :: ks =>
    match mapGet m k with
    | some (.arr items) => some items
    | _ => firstArrKey m ks

/-- The fixed priority list of known plural item-array keys. -/
def pluralKeys : List String := ["photos", "videos", "collections", "media"]

/-- Model of `shape_output`: `(data, meta)`. -/
def shape_output (input : Json) : Json × Json :=
  let meta0 : List (String × Json) :=
    match (jget input "total_results").bind as_u64 with
    | some n => mapPut [] "total_results" (.num n)
    | none => []
  let meta1 := mapPut meta0 "next_page"
    (match page_cursor input "next_page" with
     | some p => .num p
     | none => .null)
  let meta2 := mapPut meta1 "prev_page"
    (match page_cursor input "prev_page" with
     | some p => .num p
     | none => .null)
  match input with
  | .obj m =>
    match firstArrKey m pluralKeys with
    | some items => (.arr items, .obj meta2)
    | none => (input, .obj meta2)
  | _ => (input, .obj meta2)

/-- The envelope-building core of `emit_enveloped` (after format/default-field
    resolution; the printing layer `emit_data` and the `--raw` early return
    are not modelled): shape, project (per item with fallback for item
    arrays, with fallback for a single object, plain for other payloads),
    wrap. -/
def emit_enveloped (data : Json) (fields : List String) : Json :=
  let shaped := shape_output data
  match data, shaped.1 with
  | .obj _, .arr items =>
    wrap_ok (.arr (project_items_with_fallback items fields)) (some shaped.2)
  | _, _ =>
    let projected :=
      match data with
      | .obj _ => project_item_with_fallback data fields
      | _ => project data fields
    wrap_ok projected (some shaped.2)

/-! ## Sanity checks of the embedding against the Rust unit tests -/

example :
    project (.obj [("a", .obj [("b", .obj [("c", .num 1)])]), ("id", .num 5),
      ("url", .str "x")]) ["a.b.c"]
      = .obj [("a", .obj [("b", .obj [("c", .num 1)])])] := rfl

example :
    project (.obj [("height", .num 200), ("id", .num 1),
      ("src", .obj [("original", .str "u")]), ("width", .num 100)])
      ["width", "height"]
      = .obj [("height", .num 200), ("width", .num 100)] := rfl

example : parse_page_number "https://x/y?page=2&per_page=5" = some 2 := rfl

example : parse_page_number "/v1/search?page=10" = some 10 := rfl

example : parse_page_number "/v1/search?foo=bar" = none := rfl

example :
    project_item_with_fallback (.obj [("id", .num 42), ("name", .str "foo")])
      ["nonexistent"]
      = .obj [("id", .num 42)] := rfl

example : splitDot "a.b[*].c" = ["a", "b[*]", "c"] := rfl

example : trimWild "b[*]" = "b" := rfl

example : strEndsWith "b[*]" "[*]" = true := rfl

example : redact "ab c" = "** *" := rfl

/-! ## Retry-loop lemmas -/

theorem req_go_zero_resp {send : Nat → SendResult} {attempt status : Nat}
    {ra : Option String} {body : Json} (mr : Nat) (ov : Option Nat) (draw : Nat → Nat)
    (hs : send attempt = .resp status ra body) :
    req_go mr ov send draw attempt 0
      = if 200 ≤ status ∧ status ≤ 299 then ([], .success body)
        else ([], .httpError status) := by
  rw [req_go, hs]
  dsimp only
  by_cases h1 : 200 ≤ status ∧ status ≤ 299
  · rw [if_pos h1, if_pos h1]
  · rw [if_neg h1, if_neg h1]
    by_cases h2 : (status = 429 ∨ (500 ≤ status ∧ status ≤ 599)) ∧ attempt < mr
    · rw [if_pos h2]
    · rw [if_neg h2]

theorem req_go_zero_err {send : Nat → SendResult} {attempt : Nat} {msg : String}
    (mr : Nat) (ov : Option Nat) (draw : Nat → Nat) (hs : send attempt = .err msg) :
    req_go mr ov send draw attempt 0 = ([], .transportError msg) := by
  rw [req_go, hs]
  dsimp only
  by_cases h1 : attempt < mr
  · rw [if_pos h1]
  · rw [if_neg h1]

theorem req_go_succ_resp {send : Nat → SendResult} {attempt status : Nat}
    {ra : Option String} {body : Json} (mr : Nat) (ov : Option Nat) (draw : Nat → Nat)
    (fuel : Nat) (hs : send attempt = .resp status ra body) :
    req_go mr ov send draw attempt (fuel + 1)
      = if 200 ≤ status ∧ status ≤ 299 then ([], .success body)
        else if (status = 429 ∨ (500 ≤ status ∧ status ≤ 599)) ∧ attempt < mr then
          (.httpRetry status (retry_after_delay ra (attempt + 1) ov (draw (attempt + 1)))
              :: (req_go mr ov send draw (attempt + 1) fuel).1,
            (req_go mr ov send draw (attempt + 1) fuel).2)
        else ([], .httpError status) := by
  rw [req_go, hs]

theorem req_go_succ_err {send : Nat → SendResult} {attempt : Nat} {msg : String}
    (mr : Nat) (ov : Option Nat) (draw : Nat → Nat) (fuel : Nat)
    (hs : send attempt = .err msg) :
    req_go mr ov send draw attempt (fuel + 1)
      = if attempt < mr then
          (.transportRetry (redact msg) (backoff_delay (attempt + 1) (draw (attempt + 1)))
              :: (req_go mr ov send draw (attempt + 1) fuel).1,
            (req_go mr ov send draw (attempt + 1) fuel).2)
        else ([], .transportError msg) := by
  rw [req_go, hs]

theorem req_go_length_le (mr : Nat) (ov : Option Nat) (send : Nat → SendResult)
    (draw : Nat → Nat) :
    ∀ fuel attempt, (req_go mr ov send draw attempt fuel).1.length ≤ fuel := by
  intro fuel
  induction fuel with
  | zero =>
    intro attempt
    cases h : send attempt with
    | resp status ra body =>
      rw [req_go_zero_resp mr ov draw h]
      split_ifs <;> simp
    | err msg =>
      rw [req_go_zero_err mr ov draw h]
      simp
  | succ fuel ih =>
    intro attempt
    cases h : send attempt with
    | resp status ra body =>
      rw [req_go_succ_resp mr ov draw fuel h]
      split_ifs
      · simp
      · simpa using Nat.succ_le_succ (ih (attempt + 1))
      · simp
    | err msg =>
      rw [req_go_succ_err mr ov draw fuel h]
      split_ifs
      · simpa using Nat.succ_le_succ (ih (attempt + 1))
      · simp

/-- The retry event the loop records for a failed send, when the attempt
    counter has already been incremented to `a'`. -/
def expected_retry_ev (ov : Option Nat) (draw : Nat → Nat) (sr : SendResult)
    (a' : Nat) : RetryEv :=
  match sr with
  | .resp st ra _ => .httpRetry st (retry_after_delay ra a' ov (draw a'))
  | .err m => .transportRetry (redact m) (backoff_delay a' (draw a'))

theorem req_go_get? (mr : Nat) (ov : Option Nat) (send : Nat → SendResult)
    (draw : Nat → Nat) :
    ∀ fuel attempt i, i < (req_go mr ov send draw attempt fuel).1.length →
      (req_go mr ov send draw attempt fuel).1.get? i
        = some (expected_retry_ev ov draw (send (attempt + i)) (attempt + i + 1)) := by
  intro fuel
  induction fuel with
  | zero =>
    intro attempt i h
    exfalso
    have := req_go_length_le mr ov send draw 0 attempt
    omega
  | succ fuel ih =>
    intro attempt i h
    cases hs : send attempt with
    | resp status ra body =>
      rw [req_go_succ_resp mr ov draw fuel hs] at h ⊢
      by_cases h1 : 200 ≤ status ∧ status ≤ 299
      · rw [if_pos h1] at h
        simp at h
      · rw [if_neg h1] at h ⊢
        by_cases h2 : (status = 429 ∨ (500 ≤ status ∧ status ≤ 599)) ∧ attempt < mr
        · rw [if_pos h2] at h ⊢
          cases i with
          | zero =>
            simp only [List.get?]
            simp [expected_retry_ev, hs]
          | succ i =>
            have hlen : i < (req_go mr ov send draw (attempt + 1) fuel).1.length := by
              simpa using h
            have hrec := ih (attempt + 1) i hlen
            simp only [List.get?]
            have e1 : attempt + (i + 1) = attempt + 1 + i := by omega
            rw [e1]
            exact hrec
        · rw [if_neg h2] at h
          simp at h
    | err msg =>
      rw [req_go_succ_err mr ov draw fuel hs] at h ⊢
      by_cases h1 : attempt < mr
      · rw [if_pos h1] at h ⊢
        cases i with
        | zero =>
          simp only [List.get?]
          simp [expected_retry_ev, hs]
        | succ i =>
          have hlen : i < (req_go mr ov send draw (attempt + 1) fuel).1.length := by
            simpa using h
          have hrec := ih (attempt + 1) i hlen
          simp only [List.get?]
          have e1 : attempt + (i + 1) = attempt + 1 + i := by omega
          rw [e1]
          exact hrec
      · rw [if_neg h1] at h
        simp at h

theorem req_go_terminal_transport (mr : Nat) (ov : Option Nat) (send : Nat → SendResult)
    (draw : Nat → Nat) :
    ∀ fuel attempt m, (req_go mr ov send draw attempt fuel).2 = .transportError m →
      send (attempt + (req_go mr ov send draw attempt fuel).1.length) = .err m := by
  intro fuel
  induction fuel with
  | zero =>
    intro attempt m hm
    cases hs : send attempt with
    | resp status ra body =>
      exfalso
      rw [req_go_zero_resp mr ov draw hs] at hm
      split_ifs at hm
    | err msg =>
      rw [req_go_zero_err mr ov draw hs] at hm ⊢
      have : msg = m := ReqOutcome.transportError.inj hm
      subst this
      simpa using hs
  | succ fuel ih =>
    intro attempt m hm
    cases hs : send attempt with
    | resp status ra body =>
      rw [req_go_succ_resp mr ov draw fuel hs] at hm ⊢
      by_cases h1 : 200 ≤ status ∧ status ≤ 299
      · exfalso
        rw [if_pos h1] at hm
        exact ReqOutcome.noConfusion hm
      · rw [if_neg h1] at hm ⊢
        by_cases h2 : (status = 429 ∨ (500 ≤ status ∧ status ≤ 599)) ∧ attempt < mr
        · rw [if_pos h2] at hm ⊢
          have := ih (attempt + 1) m (by simpa using hm)
          simp only [List.length_cons]
          have harith : attempt + ((req_go mr ov send draw (attempt + 1) fuel).1.length + 1)
              = attempt + 1 + (req_go mr ov send draw (attempt + 1) fuel).1.length := by omega
          rw [harith]
          exact this
        · exfalso
          rw [if_neg h2] at hm
          exact ReqOutcome.noConfusion hm
    | err msg =>
      rw [req_go_succ_err mr ov draw fuel hs] at hm ⊢
      by_cases h1 : attempt < mr
      · rw [if_pos h1] at hm ⊢
        have := ih (attempt + 1) m (by simpa using hm)
        simp only [List.length_cons]
        have harith : attempt + ((req_go mr ov send draw (attempt + 1) fuel).1.length + 1)
            = attempt + 1 + (req_go mr ov send draw (attempt + 1) fuel).1.length := by omega
        rw [harith]
        exact this
      · rw [if_neg h1] at hm ⊢
        have : msg = m := ReqOutcome.transportError.inj hm
        subst this
        simpa using hs

theorem redact_data_length (s : String) : (redact s).data.length = s.data.length := by
  simp [redact]

theorem redact_chars (s : String) :
    ∀ c ∈ (redact s).data, c = '*' ∨ ¬(0x21 ≤ c.toNat ∧ c.toNat ≤ 0x7E) := by
  intro c hc
  simp only [redact, List.mem_map] at hc
  obtain ⟨a, _, ha⟩ := hc
  by_cases hg : 0x21 ≤ a.toNat ∧ a.toNat ≤ 0x7E
  · left
    rw [← ha, if_pos hg]
  · right
    rw [← ha, if_neg hg]
    exact hg

/-! ## Pagination lemmas -/

/-- The length of the array stored in the aggregate under key `k` (`0` if
    missing or non-array). -/
def arrLenAt (agg : List (String × Json)) (k : String) : Nat :=
  match mapGet agg k with
  | some (.arr xs) => xs.length
  | _ => 0

theorem push_items_len (limit : Nat) :
    ∀ (items dest : List Json) (c : Nat), dest.length = c → c ≤ limit →
      (push_items dest c limit items).1.length = (push_items dest c limit items).2 ∧
        (push_items dest c limit items).2 ≤ limit := by
  intro items
  induction items with
  | nil =>
    intro dest c h1 h2
    exact ⟨h1, h2⟩
  | cons item rest ih =>
    intro dest c h1 h2
    by_cases hc : c < limit
    · have hstep : push_items dest c limit (item :: rest)
          = push_items (dest ++ [item]) (c + 1) limit rest := by
        simp [push_items, hc]
      rw [hstep]
      exact ih (dest ++ [item]) (c + 1) (by simp [h1]) hc
    · have hstep : push_items dest c limit (item :: rest)
          = push_items dest c limit rest := by
        simp [push_items, hc]
      rw [hstep]
      exact ih dest c h1 h2

theorem copy_first_page_meta_get (agg : List (String × Json)) (resp : Json)
    (k : String) :
    mapGet (copy_first_page_meta agg resp [(k, k)]) k = mapGet agg k := by
  cases resp with
  | obj m =>
    show mapGet (m.foldl _ agg) k = mapGet agg k
    induction m generalizing agg with
    | nil => rfl
    | cons kv rest ih =>
      rw [List.foldl_cons]
      by_cases hskip : ([(k, k)].any (fun ik => ik.1 = kv.1) || kv.1 = "next_page") = true
      · rw [if_pos hskip]
        exact ih agg
      · rw [if_neg hskip]
        rw [ih (mapPut agg kv.1 kv.2)]
        have hne : kv.1 ≠ k := by
          intro he
          apply hskip
          simp [he]
        exact mapGet_mapPut_ne agg kv.1 k kv.2 (fun he => hne he.symm)
  | null => rfl
  | bool b => rfl
  | num n => rfl
  | str s => rfl
  | arr xs => rfl

theorem merge_arrays_single (agg : List (String × Json)) (resp : Json) (k : String)
    (collected limit : Nat) (xs : List Json)
    (hx : mapGet agg k = some (.arr xs)) (hlen : xs.length = collected)
    (hle : collected ≤ limit) :
    (mapGet (merge_arrays agg resp [(k, k)] collected limit).1 k
        = some (.arr (push_items xs collected limit
            (match jget resp k with
             | some (.arr items) => items
             | _ => [])).1)) ∧
      (merge_arrays agg resp [(k, k)] collected limit).2
        = (push_items xs collected limit
            (match jget resp k with
             | some (.arr items) => items
             | _ => [])).2 := by
  cases hresp : jget resp k with
  | some v =>
    cases v with
    | arr items =>
      have hstep : merge_arrays agg resp [(k, k)] collected limit
          = (mapPut agg k (.arr (push_items xs collected limit items).1),
            (push_items xs collected limit items).2) := by
        simp [merge_arrays, hresp, hx]
      rw [hstep]
      exact ⟨mapGet_mapPut_self agg k _, rfl⟩
    | null =>
      have hid : merge_arrays agg resp [(k, k)] collected limit = (agg, collected) := by
        simp [merge_arrays, hresp]
      rw [hid]
      exact ⟨hx, rfl⟩
    | bool b =>
      have hid : merge_arrays agg resp [(k, k)] collected limit = (agg, collected) := by
        simp [merge_arrays, hresp]
      rw [hid]
      exact ⟨hx, rfl⟩
    | num n =>
      have hid : merge_arrays agg resp [(k, k)] collected limit = (agg, collected) := by
        simp [merge_arrays, hresp]
      rw [hid]
      exact ⟨hx, rfl⟩
    | str s =>
      have hid : merge_arrays agg resp [(k, k)] collected limit = (agg, collected) := by
        simp [merge_arrays, hresp]
      rw [hid]
      exact ⟨hx, rfl⟩
    | obj m =>
      have hid : merge_arrays agg resp [(k, k)] collected limit = (agg, collected) := by
        simp [merge_arrays, hresp]
      rw [hid]
      exact ⟨hx, rfl⟩
  | none =>
    have hid : merge_arrays agg resp [(k, k)] collected limit = (agg, collected) := by
      simp [merge_arrays, hresp]
    rw [hid]
    exact ⟨hx, rfl⟩

theorem req_paginated_go_len (fetch : String × List (String × String) → Except String Json)
    (url_parse : String → Option String) (k : String) (limit max_pages : Nat) :
    ∀ fuel pending pages collected agg nreq agg' n' (xs : List Json),
      mapGet agg k = some (.arr xs) → xs.length = collected → collected ≤ limit →
      req_paginated_go fetch url_parse [(k, k)] limit max_pages pending pages collected agg
        nreq fuel = .ok (agg', n') →
      arrLenAt agg' k ≤ limit := by
  intro fuel
  induction fuel with
  | zero =>
    intro pending pages collected agg nreq agg' n' xs hx hlen hle hok
    cases pending with
    | none =>
      have h1 : agg' = agg := by
        have := (Except.ok.inj hok)
        exact congrArg Prod.fst this.symm
      rw [h1]
      simp [arrLenAt, hx, hlen, hle]
    | some r =>
      obtain ⟨u, q⟩ := r
      rw [req_paginated_go] at hok
      by_cases hbrk : (pages ≥ max_pages || collected ≥ limit) = true
      · rw [if_pos hbrk] at hok
        have h1 : agg' = agg := congrArg Prod.fst (Except.ok.inj hok).symm
        rw [h1]
        simp [arrLenAt, hx, hlen, hle]
      · rw [if_neg hbrk] at hok
        have h1 : agg' = agg := congrArg Prod.fst (Except.ok.inj hok).symm
        rw [h1]
        simp [arrLenAt, hx, hlen, hle]
  | succ fuel ih =>
    intro pending pages collected agg nreq agg' n' xs hx hlen hle hok
    cases pending with
    | none =>
      have h1 : agg' = agg := congrArg Prod.fst (Except.ok.inj hok).symm
      rw [h1]
      simp [arrLenAt, hx, hlen, hle]
    | some r =>
      obtain ⟨u, q⟩ := r
      rw [req_paginated_go] at hok
      by_cases hbrk : (pages ≥ max_pages || collected ≥ limit) = true
      · rw [if_pos hbrk] at hok
        have h1 : agg' = agg := congrArg Prod.fst (Except.ok.inj hok).symm
        rw [h1]
        simp [arrLenAt, hx, hlen, hle]
      · rw [if_neg hbrk] at hok
        cases hf : fetch (u, q) with
        | error e =>
          rw [hf] at hok
          exact Except.noConfusion hok
        | ok resp =>
          rw [hf] at hok
          simp only [] at hok
          set agg1 := if pages = 0 then copy_first_page_meta agg resp [(k, k)] else agg with hagg1
          have hx1 : mapGet agg1 k = some (.arr xs) := by
            rw [hagg1]
            by_cases hp : pages = 0
            · rw [if_pos hp, copy_first_page_meta_get, hx]
            · rw [if_neg hp, hx]
          have hmerge := merge_arrays_single agg1 resp k collected limit xs hx1 hlen hle
          have hpush := push_items_len limit
            (match jget resp k with
             | some (.arr items) => items
             | _ => []) xs collected hlen hle
          set st := merge_arrays agg1 resp [(k, k)] collected limit with hst
          have hx2 : mapGet st.1 k
              = some (.arr (push_items xs collected limit
                (match jget resp k with
                 | some (.arr items) => items
                 | _ => [])).1) := hmerge.1
          have hlen2 : (push_items xs collected limit
              (match jget resp k with
               | some (.arr items) => items
               | _ => [])).1.length = st.2 := by
            rw [hmerge.2]
            exact hpush.1
          have hle2 : st.2 ≤ limit := by
            rw [hmerge.2]
            exact hpush.2
          by_cases hbrk2 : (st.2 ≥ limit || pages + 1 ≥ max_pages) = true
          · rw [if_pos hbrk2] at hok
            have h1 : agg' = st.1 := congrArg Prod.fst (Except.ok.inj hok).symm
            rw [h1]
            simp [arrLenAt, hx2, hlen2, hle2]
          · rw [if_neg hbrk2] at hok
            cases hnp : getNextPage resp with
            | some s =>
              rw [hnp] at hok
              dsimp only at hok
              cases hup : url_parse s with
              | some u2 =>
                rw [hup] at hok
                dsimp only at hok
                exact ih _ _ _ _ _ _ _ _ hx2 hlen2 hle2 hok
              | none =>
                rw [hup] at hok
                dsimp only at hok
                have h1 : agg' = st.1 := congrArg Prod.fst (Except.ok.inj hok).symm
                rw [h1]
                simp [arrLenAt, hx2, hlen2, hle2]
            | none =>
              rw [hnp] at hok
              dsimp only at hok
              have h1 : agg' = st.1 := congrArg Prod.fst (Except.ok.inj hok).symm
              rw [h1]
              simp [arrLenAt, hx2, hlen2, hle2]

/-! ## Claim C4 — backoff calculator bounds and overflow -/

/-- C4: the claim asserts the backoff delay is computed "without overflow
    panic", with the exponential "clamped to the ceiling before use". The
    code clamps only after adding the jitter: at `attempt = 58` the saturated
    exponential is already `u64::MAX`, so the unchecked `exp + jitter` u64
    addition overflows for any positive jitter draw — a panic under debug
    overflow checks (`backoff_delay_checked _ _ = none`), and a wrapped
    delay of `0 ms` (not the claimed `5000 ms` that clamping before use
    would give) under release semantics. The `0 ≤ delay ≤ 5000 ms` bound
    itself does hold for the wrapping semantics. -/
theorem C4_backoff_overflow :
    backoff_delay_checked 58 1 = none ∧
      backoff_delay 58 1 = 0 ∧
      backoff_delay_spec 58 1 = 5000 ∧
      backoffExp 58 = 2 ^ 64 - 1 ∧
      (∀ attempt draw, backoff_delay attempt draw ≤ 5000) :=
  ⟨by decide, by decide, by decide, by decide,
    fun _ _ => Nat.min_le_right _ _⟩

/-! ## Claim C2 — the attempt counter never exceeds the retry budget -/

/-- C2: at most `maxRetries + 1` attempts are ever made; the `429` with
    `Retry-After: 1` then `200` scenario retries exactly once (one retry
    event, slept `1000 ms`) and returns the `200` body; the always-`500`
    scenario with `max_retries = 3` makes exactly `4` attempts (three retry
    events) and fails terminally with the HTTP error. -/
theorem C2_retry_budget :
    (∀ mr ov send draw, attemptsMade (req mr ov send draw) ≤ mr + 1) ∧
      req 3 none
        (fun a => if a = 0 then .resp 429 (some "1") .null else .resp 200 none (.str "ok"))
        (fun _ => 0)
        = ([.httpRetry 429 1000], .success (.str "ok")) ∧
      req 3 none (fun _ => .resp 500 none .null) (fun _ => 0)
        = ([.httpRetry 500 200, .httpRetry 500 400, .httpRetry 500 800], .httpError 500) :=
  ⟨fun mr ov send draw =>
    Nat.succ_le_succ (req_go_length_le mr ov send draw mr 0), rfl, rfl⟩

/-! ## Claim C8 — which attempt index the slept delay uses -/

/-- C8 counterexample: the claim says a failure observed at attempt counter
    `a` sleeps `delay(a)` and increments afterwards. In the code the counter
    is incremented first: a transport failure at counter `0` (jitter draws
    `0`) sleeps `backoff_delay 1 0 = 200 ms`, not `backoff_delay 0 0 =
    100 ms`. -/
theorem C8_counterexample :
    req 1 none (fun a => if a = 0 then .err "boom" else .resp 200 none .null) (fun _ => 0)
        = ([.transportRetry "****" 200], .success .null) ∧
      backoff_delay 0 0 = 100 ∧
      backoff_delay 1 0 = 200 ∧
      (200 : Nat) ≠ 100 :=
  ⟨rfl, rfl, rfl, by decide⟩

/-- C8 as amended: on each retryable failure observed when the attempt
    counter equals `a`, the executor increments the counter to `a + 1` first
    and sleeps the delay indexed by that post-increment value —
    `backoff_delay (a+1)` for transport failures, and the override / header /
    `backoff_delay (a+1)` priority chain for HTTP 429/5xx. The `i`-th retry
    event of a run corresponds to the failure of send `i` (the counter value
    it was observed at). -/
theorem C8_amended (mr : Nat) (ov : Option Nat) (send : Nat → SendResult)
    (draw : Nat → Nat) (i : Nat) (h : i < (req mr ov send draw).1.length) :
    (req mr ov send draw).1.get? i
      = some (expected_retry_ev ov draw (send i) (i + 1)) := by
  have := req_go_get? mr ov send draw mr 0 i h
  simpa [req] using this

/-- Closed witness for `C8_amended`. -/
theorem C8_amended_witness :
    (0 < (req 1 none (fun a => if a = 0 then .err "boom" else .resp 200 none .null)
        (fun _ => 0)).1.length) ∧
      (req 1 none (fun a => if a = 0 then .err "boom" else .resp 200 none .null)
        (fun _ => 0)).1.get? 0
        = some (expected_retry_ev none (fun _ => 0)
            ((fun a : Nat => if a = 0 then SendResult.err "boom"
              else .resp 200 none .null) 0) 1) :=
  ⟨by decide,
    C8_amended 1 none (fun a => if a = 0 then .err "boom" else .resp 200 none .null)
      (fun _ => 0) 0 (by decide)⟩

/-! ## Claim C9 — redaction of transport errors -/

/-- C9 counterexample: the terminal transport error (budget exhausted) is
    `anyhow!(e)` with the raw error text — the secret-bearing message comes
    back verbatim, unredacted; and `redact` is a length-preserving
    per-character mask, not a fixed-length one. -/
theorem C9_counterexample :
    req 0 none (fun _ => .err "token=sk-SECRET") (fun _ => 0)
        = ([], .transportError "token=sk-SECRET") ∧
      redact "token=sk-SECRET" = "***************" ∧
      ("token=sk-SECRET" : String) ≠ "***************" ∧
      (redact "ab").data.length ≠ (redact "abcd").data.length :=
  ⟨rfl, rfl, by decide, by decide⟩

/-- C9 as amended: only the retry-attempt warning log is redacted, by a
    length-preserving per-character mask (every ASCII-graphic character
    becomes `'*'`); the terminal Transport error returned when the budget is
    exhausted carries the failing send's error text unredacted. -/
theorem C9_amended :
    (∀ s, (redact s).data.length = s.data.length ∧
      ∀ c ∈ (redact s).data, c = '*' ∨ ¬(0x21 ≤ c.toNat ∧ c.toNat ≤ 0x7E)) ∧
      (∀ (mr : Nat) (ov : Option Nat) (send : Nat → SendResult) (draw : Nat → Nat)
        (i : Nat) (m : String) (d : Nat),
        (req mr ov send draw).1.get? i = some (.transportRetry m d) →
        ∃ e, send i = .err e ∧ m = redact e) ∧
      (∀ (mr : Nat) (ov : Option Nat) (send : Nat → SendResult) (draw : Nat → Nat)
        (m : String),
        (req mr ov send draw).2 = .transportError m →
        send (req mr ov send draw).1.length = .err m) := by
  refine ⟨fun s => ⟨redact_data_length s, redact_chars s⟩, ?_, ?_⟩
  · intro mr ov send draw i m d hget
    have hlt : i < (req mr ov send draw).1.length := by
      by_contra hge
      rw [List.get?_eq_none.mpr (Nat.le_of_not_lt hge)] at hget
      exact Option.noConfusion hget
    have := req_go_get? mr ov send draw mr 0 i hlt
    rw [req] at hget
    rw [this] at hget
    have hev := Option.some.inj hget
    cases hs : send (0 + i) with
    | resp status ra body =>
      exfalso
      rw [hs] at hev
      exact RetryEv.noConfusion hev
    | err e =>
      rw [hs] at hev
      refine ⟨e, by simpa using hs, ?_⟩
      have := (RetryEv.transportRetry.inj hev.symm).1
      exact this
  · intro mr ov send draw m hm
    have := req_go_terminal_transport mr ov send draw mr 0 m hm
    simpa [req] using this

/-- Closed witness for `C9_amended`. -/
theorem C9_amended_witness :
    ((req 0 none (fun _ => SendResult.err "token=sk-SECRET") (fun _ => 0)).2
        = .transportError "token=sk-SECRET") ∧
      ((fun _ : Nat => SendResult.err "token=sk-SECRET")
        ((req 0 none (fun _ => SendResult.err "token=sk-SECRET") (fun _ => 0)).1.length)
        = .err "token=sk-SECRET") :=
  ⟨rfl, C9_amended.2.2 0 none (fun _ => .err "token=sk-SECRET") (fun _ => 0)
    "token=sk-SECRET" rfl⟩

/-! ## Claim C1 — limit = 0 short-circuits before the first fetch -/

/-- Concrete three-page fetch oracle for the pagination scenarios. -/
def page1 : Json := .obj [("next_page", .str "p2"),
  ("photos", .arr [.num 1, .num 2]), ("total_results", .num 4)]

def page2 : Json := .obj [("next_page", .str "p3"),
  ("photos", .arr [.num 3, .num 4])]

def page3 : Json := .obj [("photos", .arr [.num 5, .num 6])]

def fetch3 : String × List (String × String) → Except String Json := fun r =>
  if r.1 = "p1" then .ok page1 else if r.1 = "p2" then .ok page2 else .ok page3

/-- C1 counterexample: with `limit = 0`, the loop's `collected >= limit`
    check breaks before the first fetch — zero page requests are issued and
    the first page's carried-over metadata (`total_results` here) is absent
    from the result, while the claim demands exactly one request and the
    copied metadata. -/
theorem C1_counterexample :
    req_paginated fetch3 (fun s => some s) "p1" [] ⟨some 0, none⟩ [("photos", "photos")]
        = .ok ([("photos", .arr [])], 0) ∧
      (0 : Nat) ≠ 1 ∧
      mapGet [("photos", Json.arr [])] "total_results" = none ∧
      jget page1 "total_results" = some (.num 4) :=
  ⟨rfl, by decide, rfl, rfl⟩

/-- C1 as amended: for every pagination call, `limit = 0` issues zero page
    requests and returns the seeded aggregate (an empty sequence per output
    key, no carried-over metadata): the loop condition `collected >= limit`
    short-circuits before the first fetch. -/
theorem C1_amended (fetch : String × List (String × String) → Except String Json)
    (url_parse : String → Option String) (url : String)
    (qp : List (String × String)) (mp : Option Nat)
    (item_keys : List (String × String)) :
    req_paginated fetch url_parse url qp ⟨some 0, mp⟩ item_keys
      = .ok (seed_aggregate item_keys, 0) := by
  simp [req_paginated, req_paginated_go]

/-! ## Claim C3 — the aggregate never exceeds the limit -/

/-- C3: for every pagination call over a single `(k, k)` item-key pair (the
    shape of every call site) and every configured limit, the item array
    collected under `k` never exceeds the limit; and in the concrete
    two-items-per-page scenario, `limit = 3` returns exactly 3 items after
    fetching exactly 2 pages (it stops before fetching the third). -/
theorem C3_limit_respected :
    (∀ (fetch : String × List (String × String) → Except String Json)
      (url_parse : String → Option String) (url : String)
      (qp : List (String × String)) (cli : PageCli) (k : String)
      (agg : List (String × Json)) (n : Nat),
      req_paginated fetch url_parse url qp cli [(k, k)] = .ok (agg, n) →
      arrLenAt agg k ≤ cli.limit.getD u32MAX) ∧
      req_paginated fetch3 (fun s => some s) "p1" [] ⟨some 3, none⟩ [("photos", "photos")]
        = .ok ([("photos", .arr [.num 1, .num 2, .num 3]), ("total_results", .num 4)], 2) := by
  constructor
  · intro fetch url_parse url qp cli k agg n hok
    have hseed : mapGet (seed_aggregate [(k, k)]) k = some (.arr []) := by
      simp [seed_aggregate, mapPut, mapGet]
    exact req_paginated_go_len fetch url_parse k (cli.limit.getD u32MAX)
      (cli.max_pages.getD u32MAX) _ _ _ _ _ _ _ _ [] hseed rfl (Nat.zero_le _) hok
  · rfl

/-- Closed witness for the universal part of `C3_limit_respected`. -/
theorem C3_limit_respected_witness :
    (req_paginated fetch3 (fun s => some s) "p1" [] ⟨some 3, none⟩ [("photos", "photos")]
        = .ok ([("photos", .arr [.num 1, .num 2, .num 3]), ("total_results", .num 4)], 2)) ∧
      arrLenAt [("photos", .arr [.num 1, .num 2, .num 3]), ("total_results", .num 4)] "photos"
        ≤ (Option.some 3).getD u32MAX :=
  ⟨rfl, C3_limit_respected.1 fetch3 (fun s => some s) "p1" [] ⟨some 3, none⟩ "photos"
    _ 2 rfl⟩

/-! ## Claim C10 — projecting a top-level array without wildcards -/

theorem splitCharsOn_ne_nil (sep : Char) (l : List Char) : splitCharsOn sep l ≠ [] := by
  cases l with
  | nil => simp [splitCharsOn]
  | cons c rest =>
    rw [splitCharsOn]
    by_cases h : c = sep
    · simp [h]
    · rw [if_neg h]
      cases hs : splitCharsOn sep rest with
      | nil => simp
      | cons part parts => simp

theorem splitDot_ne_nil (f : String) : splitDot f ≠ [] := by
  rw [splitDot]
  intro h
  exact splitCharsOn_ne_nil '.' f.data (List.map_eq_nil_iff.mp h)

/-- C10: on a top-level JSON array, every non-empty selector list free of
    `@all` and of array-wildcard segments projects to the empty object:
    shorthand extraction yields an array the object-only merge drops, and a
    plain dot path resolves to `Null` on an array. -/
theorem C10_array_projects_empty (xs : List Json) (fields : List String)
    (hne : fields ≠ []) (hall : "@all" ∉ fields)
    (hwild : ∀ f ∈ fields, ∀ p ∈ splitDot f, strEndsWith p "[*]" = false) :
    project (.arr xs) fields = .obj [] := by
  rw [project]
  rw [if_neg]
  · have hstep : ∀ f ∈ fields, ∀ out : List (String × Json),
        proj_step (.arr xs) (.obj out) f = Json.obj out := by
      intro f hf out
      rw [proj_step]
      by_cases h1 : f = "@ids"
      · rw [if_pos h1, extract_ids_arr]
        rfl
      · rw [if_neg h1]
        by_cases h2 : f = "@urls"
        · rw [if_pos h2, extract_urls_arr]
          rfl
        · rw [if_neg h2]
          by_cases h3 : f = "@files"
          · rw [if_pos h3, extract_by_keys_arr]
            rfl
          · rw [if_neg h3]
            by_cases h4 : f = "@thumbnails"
            · rw [if_pos h4, extract_by_keys_arr]
              rfl
            · rw [if_neg h4]
              have hnull : select_path (.arr xs) f = .null := by
                rw [select_path]
                cases hsp : splitDot f with
                | nil => exact absurd hsp (splitDot_ne_nil f)
                | cons head tail =>
                  rw [select_inner]
                  have hw : strEndsWith head "[*]" = false :=
                    hwild f hf head (by rw [hsp]; exact List.mem_cons_self _ _)
                  have hbr : head = "[*]" → False := by
                    intro he
                    rw [he] at hw
                    exact Bool.noConfusion hw
                  have : (head = "[*]" || strEndsWith head "[*]") = false := by
                    rw [hw]
                    cases hd : (decide (head = "[*]")) with
                    | false => rfl
                    | true => exact absurd (of_decide_eq_true hd) hbr
                  rw [this]
                  rfl
              rw [hnull]
              rfl
    clear hne hall
    induction fields with
    | nil => rfl
    | cons f rest ih =>
      rw [List.foldl_cons, hstep f (List.mem_cons_self _ _)]
      exact ih (fun g hg => hwild g (List.mem_cons_of_mem _ hg))
        (fun g hg out => hstep g (List.mem_cons_of_mem _ hg) out)
  · intro hcond
    rcases (Bool.or_eq_true _ _).mp hcond with h | h
    · exact hne (List.isEmpty_iff.mp h)
    · obtain ⟨f, hf, he⟩ := List.any_eq_true.mp h
      exact hall (of_decide_eq_true he ▸ hf)

/-! ## Claim C7 — next/prev page cursor normalization -/

/-- The cursor normalization restated by value shape, following the amended
    spec wording: a non-negative integer that fits `u64` is truncated to
    `u32` (`mod 2^32`); a string goes through `parse_page_number`; anything
    else (including negative or non-`u64` numbers) yields `none`. -/
def page_cursor_spec (input : Json) (key : String) : Option Nat :=
  match jget input key with
  | some (.num n) => if 0 ≤ n ∧ n < 2 ^ 64 then some (n.toNat % 2 ^ 32) else none
  | some (.str s) => parse_page_number s
  | _ => none

/-- The meta field a cursor value becomes. -/
def cursorToJson : Option Nat → Json
  | some p => .num p
  | none => .null

theorem page_cursor_eq_spec (input : Json) (key : String) :
    page_cursor input key = page_cursor_spec input key := by
  rw [page_cursor, page_cursor_spec]
  cases h : jget input key with
  | none => rfl
  | some v =>
    cases v with
    | num n =>
      by_cases hc : 0 ≤ n ∧ n < 2 ^ 64
      · simp only [as_u64, as_str, if_pos hc]
      · simp only [as_u64, as_str, if_neg hc]
    | str s => rfl
    | null => rfl
    | bool b => rfl
    | arr xs => rfl
    | obj m => rfl

theorem meta2_get_next (m0 : List (String × Json)) (x y : Json) :
    mapGet (mapPut (mapPut m0 "next_page" x) "prev_page" y) "next_page" = some x := by
  rw [mapGet_mapPut_ne _ _ _ _ (by decide), mapGet_mapPut_self]

theorem meta2_get_prev (m0 : List (String × Json)) (x y : Json) :
    mapGet (mapPut (mapPut m0 "next_page" x) "prev_page" y) "prev_page" = some y :=
  mapGet_mapPut_self _ _ _

theorem shape_output_meta_next (input : Json) :
    jget (shape_output input).2 "next_page"
      = some (cursorToJson (page_cursor input "next_page")) := by
  cases input with
  | obj m =>
    cases hf : firstArrKey m pluralKeys with
    | some items =>
      simp only [shape_output, hf]
      cases hp : page_cursor (.obj m) "next_page" with
      | some p => simp [jget, cursorToJson, hp, meta2_get_next]
      | none => simp [jget, cursorToJson, hp, meta2_get_next]
    | none =>
      simp only [shape_output, hf]
      cases hp : page_cursor (.obj m) "next_page" with
      | some p => simp [jget, cursorToJson, hp, meta2_get_next]
      | none => simp [jget, cursorToJson, hp, meta2_get_next]
  | null =>
    cases hp : page_cursor .null "next_page" with
    | some p => simp [shape_output, jget, cursorToJson, hp, meta2_get_next]
    | none => simp [shape_output, jget, cursorToJson, hp, meta2_get_next]
  | bool b =>
    cases hp : page_cursor (.bool b) "next_page" with
    | some p => simp [shape_output, jget, cursorToJson, hp, meta2_get_next]
    | none => simp [shape_output, jget, cursorToJson, hp, meta2_get_next]
  | num n =>
    cases hp : page_cursor (.num n) "next_page" with
    | some p => simp [shape_output, jget, cursorToJson, hp, meta2_get_next]
    | none => simp [shape_output, jget, cursorToJson, hp, meta2_get_next]
  | str s =>
    cases hp : page_cursor (.str s) "next_page" with
    | some p => simp [shape_output, jget, cursorToJson, hp, meta2_get_next]
    | none => simp [shape_output, jget, cursorToJson, hp, meta2_get_next]
  | arr xs =>
    cases hp : page_cursor (.arr xs) "next_page" with
    | some p => simp [shape_output, jget, cursorToJson, hp, meta2_get_next]
    | none => simp [shape_output, jget, cursorToJson, hp, meta2_get_next]

theorem shape_output_meta_prev (input : Json) :
    jget (shape_output input).2 "prev_page"
      = some (cursorToJson (page_cursor input "prev_page")) := by
  cases input with
  | obj m =>
    cases hf : firstArrKey m pluralKeys with
    | some items =>
      simp only [shape_output, hf]
      cases hp : page_cursor (.obj m) "prev_page" with
      | some p => simp [jget, cursorToJson, hp, meta2_get_prev]
      | none => simp [jget, cursorToJson, hp, meta2_get_prev]
    | none =>
      simp only [shape_output, hf]
      cases hp : page_cursor (.obj m) "prev_page" with
      | some p => simp [jget, cursorToJson, hp, meta2_get_prev]
      | none => simp [jget, cursorToJson, hp, meta2_get_prev]
  | null =>
    cases hp : page_cursor .null "prev_page" with
    | some p => simp [shape_output, jget, cursorToJson, hp, meta2_get_prev]
    | none => simp [shape_output, jget, cursorToJson, hp, meta2_get_prev]
  | bool b =>
    cases hp : page_cursor (.bool b) "prev_page" with
    | some p => simp [shape_output, jget, cursorToJson, hp, meta2_get_prev]
    | none => simp [shape_output, jget, cursorToJson, hp, meta2_get_prev]
  | num n =>
    cases hp : page_cursor (.num n) "prev_page" with
    | some p => simp [shape_output, jget, cursorToJson, hp, meta2_get_prev]
    | none => simp [shape_output, jget, cursorToJson, hp, meta2_get_prev]
  | str s =>
    cases hp : page_cursor (.str s) "prev_page" with
    | some p => simp [shape_output, jget, cursorToJson, hp, meta2_get_prev]
    | none => simp [shape_output, jget, cursorToJson, hp, meta2_get_prev]
  | arr xs =>
    cases hp : page_cursor (.arr xs) "prev_page" with
    | some p => simp [shape_output, jget, cursorToJson, hp, meta2_get_prev]
    | none => simp [shape_output, jget, cursorToJson, hp, meta2_get_prev]

/-- C7 counterexample: the claim says a numeric `next_page` field is used
    directly; the code casts `as_u64` to `u32`, truncating mod `2^32`:
    input `{"next_page": 4294967296}` yields `meta.next_page == 0`, not
    `4294967296`. -/
theorem C7_counterexample :
    (shape_output (.obj [("next_page", .num 4294967296)])).2
        = .obj [("next_page", .num 0), ("prev_page", .null)] ∧
      Json.num 0 ≠ Json.num 4294967296 :=
  ⟨rfl, by simp⟩

/-- C7 as amended: `meta.next_page` (and likewise `meta.prev_page`) is the
    field's value truncated to `u32` (mod `2^32`) when it is an integer in
    `[0, 2^64)`, the integer `page` query parameter (parsed as `u32`) when it
    is a URL string, and `null` otherwise — including negative or
    `u64`-overflowing numbers, which do not fall back to string parsing. In
    particular the URL input of the claim yields `2` and a missing field
    yields `null`. -/
theorem C7_amended :
    (∀ input key, page_cursor input key = page_cursor_spec input key) ∧
      (∀ input, jget (shape_output input).2 "next_page"
        = some (cursorToJson (page_cursor input "next_page"))) ∧
      (∀ input, jget (shape_output input).2 "prev_page"
        = some (cursorToJson (page_cursor input "prev_page"))) ∧
      (shape_output (.obj [("next_page",
          .str "https://api.pexels.com/v1/search?page=2&per_page=2&query=x")])).2
        = .obj [("next_page", .num 2), ("prev_page", .null)] ∧
      (shape_output (.obj [])).2 = .obj [("next_page", .null), ("prev_page", .null)] :=
  ⟨page_cursor_eq_spec, shape_output_meta_next, shape_output_meta_prev, rfl, rfl⟩

/-! ## Claim C5 — where the non-empty fallback applies -/

/-- C5 counterexample: the fallback is NOT single-resource-only. Projecting
    the item array of `{"photos": [{"id": 42, "name": "foo"}]}` with the
    non-matching selector `["nonexistent"]` emits `[{"id": 42}]` — the
    per-item fallback fired — whereas the raw projection of the item is the
    empty object the claim says arrays should emit. -/
theorem C5_counterexample :
    emit_enveloped (.obj [("photos", .arr [.obj [("id", .num 42), ("name", .str "foo")]])])
        ["nonexistent"]
        = .obj [("data", .arr [.obj [("id", .num 42)]]),
            ("meta", .obj [("next_page", .null), ("prev_page", .null)])] ∧
      project (.obj [("id", .num 42), ("name", .str "foo")]) ["nonexistent"] = .obj [] ∧
      Json.obj [("id", .num 42)] ≠ Json.obj [] :=
  ⟨rfl, rfl, by simp⟩

/-- C5 as amended: the non-empty fallback applies per item to item-array
    projections as well as to single-resource object projections; only a
    non-object single payload is projected without it. The fallback fires
    exactly when the raw projection is the empty object, and then produces
    `minimal_item` of the original. -/
theorem C5_amended :
    (∀ item fields, project item fields ≠ .obj [] →
      project_item_with_fallback item fields = project item fields) ∧
      (∀ item fields, project item fields = .obj [] →
        project_item_with_fallback item fields = minimal_item item) ∧
      (∀ (m : List (String × Json)) (items : List Json) (fields : List String),
        firstArrKey m pluralKeys = some items →
        emit_enveloped (.obj m) fields
          = wrap_ok (.arr (items.map (fun it => ensure_non_empty_item (project it fields) it)))
              (some (shape_output (.obj m)).2)) ∧
      (∀ (m : List (String × Json)) (fields : List String),
        firstArrKey m pluralKeys = none →
        emit_enveloped (.obj m) fields
          = wrap_ok (ensure_non_empty_item (project (.obj m) fields) (.obj m))
              (some (shape_output (.obj m)).2)) ∧
      (∀ (s : String) (fields : List String),
        emit_enveloped (.str s) fields
          = wrap_ok (project (.str s) fields) (some (shape_output (.str s)).2)) := by
  refine ⟨?_, ?_, ?_, ?_, ?_⟩
  · intro item fields h
    cases hp : project item fields with
    | obj m =>
      cases m with
      | nil => exact absurd hp h
      | cons kv rest => rw [project_item_with_fallback, hp]; rfl
    | null => rw [project_item_with_fallback, hp]; rfl
    | bool b => rw [project_item_with_fallback, hp]; rfl
    | num n => rw [project_item_with_fallback, hp]; rfl
    | str s => rw [project_item_with_fallback, hp]; rfl
    | arr xs => rw [project_item_with_fallback, hp]; rfl
  · intro item fields hp
    rw [project_item_with_fallback, hp]
    rfl
  · intro m items fields hf
    have h2 : (shape_output (.obj m)).1 = .arr items := by
      simp [shape_output, hf]
    simp only [emit_enveloped, h2]
    simp [project_items_with_fallback, project_item_with_fallback]
  · intro m fields hf
    have h2 : (shape_output (.obj m)).1 = .obj m := by
      simp [shape_output, hf]
    simp only [emit_enveloped, h2]
    rfl
  · intro s fields
    rfl

/-- Closed witness for `C5_amended`. -/
theorem C5_amended_witness :
    (project_item_with_fallback (.obj [("id", .num 1)]) ["id"]
        = project (.obj [("id", .num 1)]) ["id"]) ∧
      (project_item_with_fallback (.obj [("id", .num 42), ("name", .str "foo")])
          ["nonexistent"]
        = minimal_item (.obj [("id", .num 42), ("name", .str "foo")])) ∧
      (emit_enveloped (.obj [("photos", .arr [.obj [("id", .num 7)]])]) ["nonexistent"]
        = wrap_ok (.arr ([Json.obj [("id", .num 7)]].map
            (fun it => ensure_non_empty_item (project it ["nonexistent"]) it)))
            (some (shape_output (.obj [("photos", .arr [.obj [("id", .num 7)]])])).2)) :=
  ⟨C5_amended.1 (.obj [("id", .num 1)]) ["id"]
      (by rw [show project (.obj [("id", Json.num 1)]) ["id"]
            = Json.obj [("id", Json.num 1)] from rfl]; simp),
    C5_amended.2.1 (.obj [("id", .num 42), ("name", .str "foo")]) ["nonexistent"] rfl,
    C5_amended.2.2.1 [("photos", .arr [.obj [("id", .num 7)]])]
      [Json.obj [("id", .num 7)]] ["nonexistent"] rfl⟩

/-- Closed witness for `C10_array_projects_empty`. -/
theorem C10_array_projects_empty_witness :
    (["a.b", "@ids"] ≠ ([] : List String)) ∧
      ("@all" ∉ ["a.b", "@ids"]) ∧
      project (.arr [.obj [("id", .num 1)]]) ["a.b", "@ids"] = .obj [] :=
  ⟨by decide, by decide,
    C10_array_projects_empty [.obj [("id", .num 1)]] ["a.b", "@ids"]
      (by decide) (by decide) (by decide)⟩

/-! ## Claim C6 — projector idempotence

Infrastructure: a per-key characterization of `project`'s output
(`contribAt`/`Gaux`), and round-trip lemmas for selecting back into the
nested chains `make_nested` builds. -/

/-- A selector free of array-wildcard segments. -/
abbrev WildFree (f : String) : Prop :=
  ∀ p ∈ splitDot f, strEndsWith p "[*]" = false

/-- Path segments that are neither the bare `"*"` nor `"[*]"`-suffixed:
    segments that plain object descent traverses. -/
def NoStarWild (l : List String) : Prop :=
  ∀ s ∈ l, s ≠ "*" ∧ strEndsWith s "[*]" = false

/-- The nested single-key chain of `make_nested`, on pre-split segments. -/
def nestParts (parts : List String) (v : Json) : Json :=
  parts.foldr (fun part cur => .obj [(part, cur)]) v

theorem make_nested_eq_nestParts (path : String) (v : Json) :
    make_nested path v = nestParts (splitDot path) v := rfl

theorem nestParts_append (a b : List String) (v : Json) :
    nestParts (a ++ b) v = nestParts a (nestParts b v) := by
  rw [nestParts, nestParts, nestParts, List.foldr_append]

theorem isNull_iff (v : Json) : v.isNull = true ↔ v = .null := by
  cases v <;> simp [Json.isNull]

theorem select_inner_null (parts : List String) : select_inner .null parts = .null := by
  cases parts <;> rfl

theorem select_inner_star (X : Json) (t : List String) :
    select_inner X ("*" :: t) = .null := by
  cases X with
  | obj m => rw [select_inner, if_pos rfl]
  | arr xs =>
    rw [select_inner]
    rfl
  | null => rfl
  | bool b => rfl
  | num n => rfl
  | str s => rfl

theorem select_inner_star_mem (parts : List String) (X : Json)
    (hw : ∀ s ∈ parts, strEndsWith s "[*]" = false) (hs : "*" ∈ parts) :
    select_inner X parts = .null := by
  induction parts generalizing X with
  | nil => exact absurd hs (List.not_mem_nil _)
  | cons p rest ih =>
    by_cases hp : p = "*"
    · rw [hp]
      exact select_inner_star X rest
    · have hsrest : "*" ∈ rest := by
        rcases List.mem_cons.mp hs with he | hm
        · exact absurd he.symm hp
        · exact hm
      have hwp : strEndsWith p "[*]" = false := hw p (List.mem_cons_self _ _)
      have hwrest : ∀ s ∈ rest, strEndsWith s "[*]" = false :=
        fun s hsm => hw s (List.mem_cons_of_mem _ hsm)
      cases X with
      | obj m =>
        rw [select_inner, if_neg hp, hwp]
        simp only [Bool.false_eq_true, if_false]
        cases hg : mapGet m p with
        | some w => exact ih w hwrest hsrest
        | none => rfl
      | arr xs =>
        rw [select_inner]
        have hne : ¬ p = "[*]" := by
          intro he
          rw [he] at hwp
          exact Bool.noConfusion hwp
        have : (p = "[*]" || strEndsWith p "[*]") = false := by
          rw [hwp]
          cases hd : decide (p = "[*]") with
          | false => rfl
          | true => exact absurd (of_decide_eq_true hd) hne
        rw [this]
        rfl
      | null => exact select_inner_null _
      | bool b => rfl
      | num n => rfl
      | str s => rfl

theorem ne_wild_of_endsWith_false {s : String} (hw : strEndsWith s "[*]" = false) :
    s ≠ "[*]" := by
  intro he
  rw [he] at hw
  exact Bool.noConfusion hw

theorem select_inner_obj_cons (m : List (String × Json)) (head : String)
    (tail : List String) (hs : head ≠ "*") (hw : strEndsWith head "[*]" = false) :
    select_inner (.obj m) (head :: tail)
      = match mapGet m head with
        | some v => select_inner v tail
        | none => .null := by
  rw [select_inner, if_neg hs, hw]
  simp only [Bool.false_eq_true, if_false]

theorem select_inner_arr_cons (xs : List Json) (head : String) (tail : List String)
    (hw : strEndsWith head "[*]" = false) :
    select_inner (.arr xs) (head :: tail) = .null := by
  have hcond : (head = "[*]" || strEndsWith head "[*]") = false := by
    rw [hw]
    cases hd : decide (head = "[*]") with
    | false => rfl
    | true => exact absurd (of_decide_eq_true hd) (ne_wild_of_endsWith_false hw)
  rw [select_inner, hcond]
  rfl

theorem select_inner_append (a b : List String) (X : Json) (ha : NoStarWild a) :
    select_inner X (a ++ b) = select_inner (select_inner X a) b := by
  induction a generalizing X with
  | nil => rfl
  | cons s a' ih =>
    obtain ⟨hs, hw⟩ := ha s (List.mem_cons_self _ _)
    have ha' : NoStarWild a' := fun x hx => ha x (List.mem_cons_of_mem _ hx)
    cases X with
    | obj m =>
      rw [List.cons_append, select_inner_obj_cons m s (a' ++ b) hs hw,
        select_inner_obj_cons m s a' hs hw]
      cases hg : mapGet m s with
      | some w => exact ih w ha'
      | none => exact (select_inner_null b).symm
    | arr xs =>
      rw [List.cons_append, select_inner_arr_cons xs s (a' ++ b) hw,
        select_inner_arr_cons xs s a' hw]
      exact (select_inner_null b).symm
    | null => exact (select_inner_null b).symm
    | bool v => exact (select_inner_null b).symm
    | num v => exact (select_inner_null b).symm
    | str v => exact (select_inner_null b).symm

theorem select_nestParts_descend (c rest q' : List String) (v : Json)
    (hc : NoStarWild c) :
    select_inner (nestParts (c ++ rest) v) (c ++ q')
      = select_inner (nestParts rest v) q' := by
  induction c with
  | nil => rfl
  | cons s c' ih =>
    obtain ⟨hs, hw⟩ := hc s (List.mem_cons_self _ _)
    have hc' : NoStarWild c' := fun x hx => hc x (List.mem_cons_of_mem _ hx)
    have hnest : nestParts ((s :: c') ++ rest) v
        = .obj [(s, nestParts (c' ++ rest) v)] := rfl
    rw [hnest, List.cons_append, select_inner, if_neg hs, hw]
    simp only [Bool.false_eq_true, if_false]
    have hg : mapGet [(s, nestParts (c' ++ rest) v)] s = some (nestParts (c' ++ rest) v) := by
      rw [mapGet, if_pos rfl]
    rw [hg]
    exact ih hc'

theorem select_nestParts_self (p : List String) (v : Json) (hp : NoStarWild p) :
    select_inner (nestParts p v) p = v := by
  have h0 := select_nestParts_descend p [] [] v hp
  have e : p ++ ([] : List String) = p := List.append_nil p
  rw [e] at h0
  exact h0

theorem select_nestParts_diverge (a b : String) (p₁ q₁ : List String) (v : Json)
    (hb : b ≠ "*" ∧ strEndsWith b "[*]" = false) (hab : a ≠ b) :
    select_inner (nestParts (a :: p₁) v) (b :: q₁) = .null := by
  have hnest : nestParts (a :: p₁) v = .obj [(a, nestParts p₁ v)] := rfl
  rw [hnest, select_inner, if_neg hb.1, hb.2]
  simp only [Bool.false_eq_true, if_false]
  have hg : mapGet [(a, nestParts p₁ v)] b = none := by
    rw [mapGet, if_neg (fun he => hab he.symm)]
    rfl
  rw [hg]

/-- Trichotomy of two segment lists: one extends the other, or they diverge
    after a common prefix. -/
theorem segments_tricho (p q : List String) :
    (∃ r, q = p ++ r) ∨ (∃ r, r ≠ [] ∧ p = q ++ r) ∨
      (∃ c a b p₁ q₁, a ≠ b ∧ p = c ++ a :: p₁ ∧ q = c ++ b :: q₁) := by
  induction p generalizing q with
  | nil => exact Or.inl ⟨q, rfl⟩
  | cons a p' ih =>
    cases q with
    | nil => exact Or.inr (Or.inl ⟨a :: p', by simp, by simp⟩)
    | cons b q' =>
      by_cases hab : a = b
      · subst hab
        rcases ih q' with ⟨r, hr⟩ | ⟨r, hne, hr⟩ | ⟨c, x, y, p₁, q₁, hxy, hp, hq⟩
        · exact Or.inl ⟨r, by rw [hr]; rfl⟩
        · exact Or.inr (Or.inl ⟨r, hne, by rw [hr]; rfl⟩)
        · exact Or.inr (Or.inr ⟨a :: c, x, y, p₁, q₁, hxy, by rw [hp]; rfl, by rw [hq]; rfl⟩)
      · exact Or.inr (Or.inr ⟨[], a, b, p', q', hab, rfl, rfl⟩)

/-! ### lastGet lemmas -/

theorem lastGet_eq_none_of_forall_ne (m : List (String × Json)) (k : String)
    (h : ∀ p ∈ m, p.1 ≠ k) : lastGet m k = none := by
  induction m with
  | nil => rfl
  | cons kv rest ih =>
    rw [lastGet_cons, ih (fun p hp => h p (List.mem_cons_of_mem _ hp))]
    rw [if_neg (h kv (List.mem_cons_self _ _))]

theorem lastGet_eq_mapGet_of_pairwise_ne (m : List (String × Json)) (k : String)
    (h : List.Pairwise (fun a b => a.1 ≠ b.1) m) : lastGet m k = mapGet m k := by
  induction m with
  | nil => rfl
  | cons kv rest ih =>
    rw [List.pairwise_cons] at h
    rw [lastGet_cons, ih h.2, mapGet]
    by_cases hk : k = kv.1
    · subst hk
      have hnone : mapGet rest kv.1 = none := by
        rw [← ih h.2]
        exact lastGet_eq_none_of_forall_ne rest kv.1 (fun p hp => (h.1 p hp).symm)
      rw [hnone]
    · rw [if_neg hk]
      cases hg : mapGet rest k with
      | some v => rfl
      | none => simp [Ne.symm hk]

theorem sortedKeys_pairwise_ne {m : List (String × Json)} (h : SortedKeys m) :
    List.Pairwise (fun a b : String × Json => a.1 ≠ b.1) m :=
  h.imp (fun hlt => strLt_ne hlt)

theorem lastGet_filter (m : List (String × Json)) (p : String → Bool) (k : String) :
    lastGet (m.filter (fun kv => p kv.1)) k
      = if p k then lastGet m k else none := by
  induction m with
  | nil => simp [lastGet]
  | cons kv rest ih =>
    by_cases hpkv : p kv.1 = true
    · have hf : List.filter (fun kv => p kv.1) (kv :: rest)
          = kv :: List.filter (fun kv => p kv.1) rest := by
        simp [List.filter_cons, hpkv]
      rw [hf, lastGet_cons, ih, lastGet_cons]
      by_cases hpk : p k = true
      · rw [if_pos hpk, if_pos hpk]
      · rw [if_neg hpk, if_neg hpk]
        have hne : kv.1 ≠ k := by
          intro he
          rw [he] at hpkv
          exact hpk hpkv
        rw [if_neg hne]
    · have hf : List.filter (fun kv => p kv.1) (kv :: rest)
          = List.filter (fun kv => p kv.1) rest := by
        simp [List.filter_cons, hpkv]
      rw [hf, ih, lastGet_cons]
      by_cases hpk : p k = true
      · rw [if_pos hpk, if_pos hpk]
        have hne : kv.1 ≠ k := by
          intro he
          rw [he] at hpkv
          exact hpkv hpk
        cases hg : lastGet rest k with
        | some v => rfl
        | none => rw [if_neg hne]
      · rw [if_neg hpk, if_neg hpk]

/-! ### Per-key contribution of one selector -/

/-- What a shorthand selector with key-predicate `p` contributes at key `k`:
    the last binding of the filtered object (none on non-objects). -/
def shorthandContrib (X : Json) (p : String → Bool) (k : String) : Option Json :=
  match X with
  | .obj m => if p k then lastGet m k else none
  | _ => none

/-- What a dotted-path selector contributes at top-level key `k`. -/
def pathContrib (X : Json) (f : String) (k : String) : Option Json :=
  match splitDot f with
  | [] => none
  | h :: t =>
    if h = k then
      if (select_inner X (h :: t)).isNull then none
      else some (nestParts t (select_inner X (h :: t)))
    else none

/-- What selector `f` contributes at top-level key `k` when projected over
    `X` (mirrors `proj_step`'s dispatch). -/
def contribAt (X : Json) (f : String) (k : String) : Option Json :=
  if f = "@ids" then shorthandContrib X isIdKey k
  else if f = "@urls" then shorthandContrib X isUrlKey k
  else if f = "@files" then shorthandContrib X (fun s => filesKeys.contains s) k
  else if f = "@thumbnails" then shorthandContrib X (fun s => thumbsKeys.contains s) k
  else pathContrib X f k

/-- The folded per-key value of a selector list (later selectors override). -/
def Gaux (X : Json) (fields : List String) (k : String) (init : Option Json) :
    Option Json :=
  fields.foldl (fun acc f =>
    match contribAt X f k with
    | some v => some v
    | none => acc) init

/-- The per-key value of `project X fields` (for non-identity projections). -/
def Gproj (X : Json) (fields : List String) (k : String) : Option Json :=
  Gaux X fields k none

theorem Gaux_cons (X : Json) (f : String) (rest : List String) (k : String)
    (init : Option Json) :
    Gaux X (f :: rest) k init
      = Gaux X rest k
          (match contribAt X f k with
           | some v => some v
           | none => init) := rfl

theorem Gaux_append (X : Json) (A B : List String) (k : String) (init : Option Json) :
    Gaux X (A ++ B) k init = Gaux X B k (Gaux X A k init) := by
  rw [Gaux, Gaux, Gaux, List.foldl_append]

theorem Gaux_of_forall_none {X : Json} {fields : List String} {k : String}
    (h : ∀ f ∈ fields, contribAt X f k = none) (init : Option Json) :
    Gaux X fields k init = init := by
  induction fields generalizing init with
  | nil => rfl
  | cons f rest ih =>
    rw [Gaux_cons, h f (List.mem_cons_self _ _)]
    exact ih (fun g hg => h g (List.mem_cons_of_mem _ hg)) init

theorem Gaux_preserve {X : Json} {B : List String} {k : String} {v : Json}
    (hB : ∀ f ∈ B, contribAt X f k = none ∨ contribAt X f k = some v) :
    Gaux X B k (some v) = some v := by
  induction B with
  | nil => rfl
  | cons f rest ih =>
    rw [Gaux_cons]
    rcases hB f (List.mem_cons_self _ _) with hc | hc
    · rw [hc]
      exact ih (fun g hg => hB g (List.mem_cons_of_mem _ hg))
    · rw [hc]
      exact ih (fun g hg => hB g (List.mem_cons_of_mem _ hg))

theorem Gaux_decompose {X : Json} {k : String} {v : Json} :
    ∀ {fields : List String} {init : Option Json}, Gaux X fields k init = some v →
      (∃ A f₀ B, fields = A ++ f₀ :: B ∧ contribAt X f₀ k = some v ∧
        ∀ f ∈ B, contribAt X f k = none) ∨
      (init = some v ∧ ∀ f ∈ fields, contribAt X f k = none) := by
  intro fields
  induction fields with
  | nil => intro init h; exact Or.inr ⟨h, by intro f hf; exact absurd hf (List.not_mem_nil _)⟩
  | cons f rest ih =>
    intro init h
    rw [Gaux_cons] at h
    cases hc : contribAt X f k with
    | some w =>
      rw [hc] at h
      rcases ih h with ⟨A, f₀, B, hsplit, hc₀, hB⟩ | ⟨hinit, hrest⟩
      · exact Or.inl ⟨f :: A, f₀, B, by rw [hsplit]; rfl, hc₀, hB⟩
      · have hw : w = v := Option.some.inj hinit
        subst hw
        exact Or.inl ⟨[], f, rest, rfl, hc, hrest⟩
    | none =>
      rw [hc] at h
      rcases ih h with ⟨A, f₀, B, hsplit, hc₀, hB⟩ | ⟨hinit, hrest⟩
      · exact Or.inl ⟨f :: A, f₀, B, by rw [hsplit]; rfl, hc₀, hB⟩
      · refine Or.inr ⟨hinit, fun g hg => ?_⟩
        rcases List.mem_cons.mp hg with he | hm
        · rw [he]; exact hc
        · exact hrest g hm

/-! ### The per-step and whole-fold characterization of `project` -/

theorem mapGet_merge_step (o c : List (String × Json)) (k : String) :
    mapGet (mapPutAll o (mapPutAll [] c)) k
      = match lastGet c k with
        | some v => some v
        | none => mapGet o k := by
  rw [mapGet_mapPutAll,
    lastGet_eq_mapGet_of_pairwise_ne _ _
      (sortedKeys_pairwise_ne (sortedKeys_mapPutAll sortedKeys_nil c)),
    mapGet_mapPutAll]
  cases lastGet c k <;> rfl

theorem shorthand_step_char (X : Json) (o : List (String × Json)) (p : String → Bool)
    (extractFn : Json → Json)
    (hobj : ∀ m, extractFn (.obj m) = .obj (mapPutAll [] (m.filter (fun kv => p kv.1))))
    (harr : ∀ xs, ∃ ys, extractFn (.arr xs) = .arr ys)
    (hnull : extractFn .null = .null) (hbool : ∀ b, extractFn (.bool b) = .null)
    (hnum : ∀ n, extractFn (.num n) = .null) (hstr : ∀ s, extractFn (.str s) = .null)
    (hs : SortedKeys o) :
    ∃ o', merge (.obj o) (extractFn X) = .obj o' ∧ SortedKeys o' ∧
      ∀ k, mapGet o' k
        = match shorthandContrib X p k with
          | some v => some v
          | none => mapGet o k := by
  cases X with
  | obj m =>
    rw [hobj]
    refine ⟨mapPutAll o (mapPutAll [] (m.filter (fun kv => p kv.1))), rfl,
      sortedKeys_mapPutAll hs _, fun k => ?_⟩
    rw [mapGet_merge_step, lastGet_filter]
    rfl
  | arr xs =>
    obtain ⟨ys, hys⟩ := harr xs
    rw [hys]
    exact ⟨o, rfl, hs, fun k => rfl⟩
  | null =>
    rw [hnull]
    exact ⟨o, rfl, hs, fun k => rfl⟩
  | bool b =>
    rw [hbool]
    exact ⟨o, rfl, hs, fun k => rfl⟩
  | num n =>
    rw [hnum]
    exact ⟨o, rfl, hs, fun k => rfl⟩
  | str s =>
    rw [hstr]
    exact ⟨o, rfl, hs, fun k => rfl⟩

theorem pathContrib_eq {f h : String} {t : List String} (X : Json) (k : String)
    (hsp : splitDot f = h :: t) :
    pathContrib X f k
      = if h = k then
          if (select_inner X (h :: t)).isNull then none
          else some (nestParts t (select_inner X (h :: t)))
        else none := by
  simp only [pathContrib, hsp]

theorem proj_step_char (X : Json) (o : List (String × Json)) (f : String)
    (hs : SortedKeys o) :
    ∃ o', proj_step X (.obj o) f = .obj o' ∧ SortedKeys o' ∧
      ∀ k, mapGet o' k
        = match contribAt X f k with
          | some v => some v
          | none => mapGet o k := by
  by_cases h1 : f = "@ids"
  · subst h1
    have := shorthand_step_char X o isIdKey extract_ids extract_ids_obj
      (fun xs => ⟨xs.map extract_ids, extract_ids_arr xs⟩)
      (by rw [extract_ids.eq_def]) (fun b => by rw [extract_ids.eq_def]) (fun n => by rw [extract_ids.eq_def])
      (fun s => by rw [extract_ids.eq_def]) hs
    exact this
  · by_cases h2 : f = "@urls"
    · subst h2
      have := shorthand_step_char X o isUrlKey extract_urls extract_urls_obj
        (fun xs => ⟨xs.map extract_urls, extract_urls_arr xs⟩)
        (by rw [extract_urls.eq_def]) (fun b => by rw [extract_urls.eq_def]) (fun n => by rw [extract_urls.eq_def])
        (fun s => by rw [extract_urls.eq_def]) hs
      rcases this with ⟨o', ho', hso', hchar⟩
      refine ⟨o', ?_, hso', hchar⟩
      rw [proj_step, if_neg (by decide), if_pos rfl]
      exact ho'
    · by_cases h3 : f = "@files"
      · subst h3
        have := shorthand_step_char X o (fun s => filesKeys.contains s)
          (fun j => extract_by_keys j filesKeys) (fun m => extract_by_keys_obj m filesKeys)
          (fun xs => ⟨xs.map (fun v => extract_by_keys v filesKeys),
            extract_by_keys_arr xs filesKeys⟩)
          (by show extract_by_keys Json.null filesKeys = Json.null; rw [extract_by_keys.eq_def])
          (fun b => by show extract_by_keys (Json.bool b) filesKeys = Json.null; rw [extract_by_keys.eq_def])
          (fun n => by show extract_by_keys (Json.num n) filesKeys = Json.null; rw [extract_by_keys.eq_def])
          (fun s => by show extract_by_keys (Json.str s) filesKeys = Json.null; rw [extract_by_keys.eq_def]) hs
        rcases this with ⟨o', ho', hso', hchar⟩
        refine ⟨o', ?_, hso', hchar⟩
        rw [proj_step, if_neg (by decide), if_neg (by decide), if_pos rfl]
        exact ho'
      · by_cases h4 : f = "@thumbnails"
        · subst h4
          have := shorthand_step_char X o (fun s => thumbsKeys.contains s)
            (fun j => extract_by_keys j thumbsKeys)
            (fun m => extract_by_keys_obj m thumbsKeys)
            (fun xs => ⟨xs.map (fun v => extract_by_keys v thumbsKeys),
              extract_by_keys_arr xs thumbsKeys⟩)
            (by show extract_by_keys Json.null thumbsKeys = Json.null; rw [extract_by_keys.eq_def])
            (fun b => by show extract_by_keys (Json.bool b) thumbsKeys = Json.null; rw [extract_by_keys.eq_def])
            (fun n => by show extract_by_keys (Json.num n) thumbsKeys = Json.null; rw [extract_by_keys.eq_def])
            (fun s => by show extract_by_keys (Json.str s) thumbsKeys = Json.null; rw [extract_by_keys.eq_def]) hs
          rcases this with ⟨o', ho', hso', hchar⟩
          refine ⟨o', ?_, hso', hchar⟩
          rw [proj_step, if_neg (by decide), if_neg (by decide), if_neg (by decide),
            if_pos rfl]
          exact ho'
        · have hstep : proj_step X (.obj o) f
              = (if (select_inner X (splitDot f)).isNull then (.obj o)
                 else merge (.obj o) (make_nested f (select_inner X (splitDot f)))) := by
            rw [proj_step, if_neg h1, if_neg h2, if_neg h3, if_neg h4]
            rfl
          have hcontrib : ∀ k, contribAt X f k = pathContrib X f k := by
            intro k
            rw [contribAt, if_neg h1, if_neg h2, if_neg h3, if_neg h4]
          cases hsp : splitDot f with
          | nil => exact absurd hsp (splitDot_ne_nil f)
          | cons hd t =>
            by_cases hnull : (select_inner X (hd :: t)).isNull = true
            · refine ⟨o, ?_, hs, fun k => ?_⟩
              · rw [hstep, hsp, if_pos hnull]
              · rw [hcontrib k, pathContrib_eq X k hsp]
                by_cases hk : hd = k
                · rw [if_pos hk, if_pos hnull]
                · rw [if_neg hk]
            · have hmn : make_nested f (select_inner X (hd :: t))
                  = .obj [(hd, nestParts t (select_inner X (hd :: t)))] := by
                rw [make_nested_eq_nestParts, hsp]
                rfl
              refine ⟨mapPutAll o [(hd, nestParts t (select_inner X (hd :: t)))],
                ?_, sortedKeys_mapPutAll hs _, fun k => ?_⟩
              · rw [hstep, hsp, if_neg hnull, hmn]
                rfl
              · rw [mapGet_mapPutAll, hcontrib k, pathContrib_eq X k hsp, lastGet_cons]
                by_cases hk : hd = k
                · subst hk
                  simp [lastGet, hnull]
                · simp [lastGet, hk]

theorem project_cond_false {fields : List String} (hne : fields ≠ [])
    (hall : "@all" ∉ fields) :
    (fields.isEmpty || fields.any (fun f => f = "@all")) = false := by
  have h1 : fields.isEmpty = false := by
    cases he : fields.isEmpty
    · rfl
    · exact absurd (List.isEmpty_iff.mp he) hne
  have h2 : fields.any (fun f => f = "@all") = false := by
    cases ha : fields.any (fun f => f = "@all")
    · rfl
    · obtain ⟨f, hf, he⟩ := List.any_eq_true.mp ha
      exact absurd (of_decide_eq_true he ▸ hf) hall
  rw [h1, h2]
  rfl

theorem project_fold (X : Json) :
    ∀ (fields : List String) (o : List (String × Json)), SortedKeys o →
      ∃ o', List.foldl (proj_step X) (.obj o) fields = .obj o' ∧ SortedKeys o' ∧
        ∀ k, mapGet o' k = Gaux X fields k (mapGet o k) := by
  intro fields
  induction fields with
  | nil => intro o hs; exact ⟨o, rfl, hs, fun k => rfl⟩
  | cons f rest ih =>
    intro o hs
    obtain ⟨o₁, hstep, hs₁, hchar₁⟩ := proj_step_char X o f hs
    obtain ⟨o', hfold, hs', hchar'⟩ := ih o₁ hs₁
    refine ⟨o', ?_, hs', fun k => ?_⟩
    · rw [List.foldl_cons, hstep, hfold]
    · rw [hchar' k, Gaux_cons, hchar₁ k]

theorem project_obj_char (X : Json) (fields : List String) (hne : fields ≠ [])
    (hall : "@all" ∉ fields) :
    ∃ o', project X fields = .obj o' ∧ SortedKeys o' ∧
      ∀ k, mapGet o' k = Gproj X fields k := by
  rw [project, project_cond_false hne hall]
  simp only [Bool.false_eq_true, if_false]
  exact project_fold X fields [] sortedKeys_nil

/-! ### Stability of contributions under re-projection -/

/-- Top-level keys of an object are distinct: the `BTreeMap` well-formedness
    of a `serde_json::Value` object (every value the Rust code receives
    satisfies it; the Lean `Json` type alone does not enforce it). -/
abbrev TopNodup (X : Json) : Prop :=
  match X with
  | .obj m => List.Pairwise (fun a b : String × Json => a.1 ≠ b.1) m
  | _ => True

theorem shorthandContrib_obj (m : List (String × Json)) (p : String → Bool) (k : String) :
    shorthandContrib (.obj m) p k = if p k then lastGet m k else none := rfl

theorem nestParts_cons (p : String) (rest : List String) (v : Json) :
    nestParts (p :: rest) v = .obj [(p, nestParts rest v)] := rfl

theorem noStarWild_of_select_ne_null {X : Json} {parts : List String}
    (hw : ∀ p ∈ parts, strEndsWith p "[*]" = false)
    (hnn : select_inner X parts ≠ .null) : NoStarWild parts := by
  intro s hs
  refine ⟨fun he => ?_, hw s hs⟩
  exact hnn (select_inner_star_mem parts X hw (by rw [← he]; exact hs))

theorem lastGet_sorted {o' : List (String × Json)} (hsort : SortedKeys o') (k : String) :
    lastGet o' k = mapGet o' k :=
  lastGet_eq_mapGet_of_pairwise_ne o' k (sortedKeys_pairwise_ne hsort)

theorem shorthandContrib_out_none {o' : List (String × Json)} {p : String → Bool}
    {k : String} (hsort : SortedKeys o') (hget : mapGet o' k = none) :
    shorthandContrib (.obj o') p k = none := by
  rw [shorthandContrib_obj]
  by_cases hp : p k = true
  · rw [if_pos hp, lastGet_sorted hsort, hget]
  · rw [if_neg hp]

theorem shorthandContrib_out_cases {o' : List (String × Json)} {p : String → Bool}
    {k : String} {v : Json} (hsort : SortedKeys o') (hget : mapGet o' k = some v) :
    shorthandContrib (.obj o') p k = none ∨ shorthandContrib (.obj o') p k = some v := by
  rw [shorthandContrib_obj]
  by_cases hp : p k = true
  · right
    rw [if_pos hp, lastGet_sorted hsort, hget]
  · left
    rw [if_neg hp]

theorem shorthandContrib_out_self {doc : Json} {p : String → Bool} {k : String}
    {v : Json} {o' : List (String × Json)} (hsort : SortedKeys o')
    (hget : mapGet o' k = some v) (hc : shorthandContrib doc p k = some v) :
    shorthandContrib (.obj o') p k = some v := by
  have hp : p k = true := by
    by_contra hp
    cases doc with
    | obj m =>
      rw [shorthandContrib_obj, if_neg hp] at hc
      exact Option.noConfusion hc
    | null => exact Option.noConfusion hc
    | bool b => exact Option.noConfusion hc
    | num n => exact Option.noConfusion hc
    | str s => exact Option.noConfusion hc
    | arr xs => exact Option.noConfusion hc
  rw [shorthandContrib_obj, if_pos hp, lastGet_sorted hsort, hget]

theorem pathContrib_out_none {o' : List (String × Json)} {f k : String}
    (hsort : SortedKeys o') (hget : mapGet o' k = none) (hw : WildFree f) :
    pathContrib (.obj o') f k = none := by
  cases hsp : splitDot f with
  | nil => simp only [pathContrib, hsp]
  | cons h t =>
    rw [pathContrib_eq _ _ hsp]
    by_cases hk : h = k
    · subst hk
      have hwh : strEndsWith h "[*]" = false := hw h (by rw [hsp]; exact List.mem_cons_self _ _)
      have hnull : (select_inner (.obj o') (h :: t)).isNull = true := by
        by_cases hstar : h = "*"
        · rw [hstar, select_inner_star]
          rfl
        · rw [select_inner_obj_cons o' h t hstar hwh, hget]
          rfl
      rw [if_pos rfl, if_pos hnull]
    · rw [if_neg hk]

theorem pathContrib_out_self {doc : Json} {f k : String} {v : Json}
    {o' : List (String × Json)} (hsort : SortedKeys o') (hget : mapGet o' k = some v)
    (hw : WildFree f) (hc : pathContrib doc f k = some v) :
    pathContrib (.obj o') f k = some v := by
  cases hsp : splitDot f with
  | nil =>
    rw [show pathContrib doc f k = none by simp only [pathContrib, hsp]] at hc
    exact Option.noConfusion hc
  | cons h t =>
    rw [pathContrib_eq _ _ hsp] at hc ⊢
    by_cases hk : h = k
    · subst hk
      rw [if_pos rfl] at hc ⊢
      by_cases hnull : (select_inner doc (h :: t)).isNull = true
      · rw [if_pos hnull] at hc
        exact Option.noConfusion hc
      · rw [if_neg hnull] at hc
        have hv : v = nestParts t (select_inner doc (h :: t)) := (Option.some.inj hc).symm
        have hvnn : select_inner doc (h :: t) ≠ .null := by
          intro he
          rw [he] at hnull
          exact hnull rfl
        have hwparts : ∀ p ∈ (h :: t), strEndsWith p "[*]" = false := by
          intro p hp
          exact hw p (by rw [hsp]; exact hp)
        have hnsw : NoStarWild (h :: t) := noStarWild_of_select_ne_null hwparts hvnn
        have hnswt : NoStarWild t := fun s hs => hnsw s (List.mem_cons_of_mem _ hs)
        have h2 : select_inner (.obj o') (h :: t)
            = select_inner v t := by
          rw [select_inner_obj_cons o' h t (hnsw h (List.mem_cons_self _ _)).1
            (hnsw h (List.mem_cons_self _ _)).2, hget]
        have h3 : select_inner v t = select_inner doc (h :: t) := by
          rw [hv, select_nestParts_self t _ hnswt]
        rw [h2, h3, if_neg hnull, ← hv]
    · rw [if_neg hk] at hc
      exact Option.noConfusion hc

theorem path_after_shorthand {doc : Json} {p₀ : String → Bool} {f k : String} {v : Json}
    {o' : List (String × Json)} (hsort : SortedKeys o') (hget : mapGet o' k = some v)
    (hnodup : TopNodup doc) (hw : WildFree f)
    (hc₀ : shorthandContrib doc p₀ k = some v)
    (hcf : pathContrib doc f k = none) :
    pathContrib (.obj o') f k = none ∨ pathContrib (.obj o') f k = some v := by
  cases hsp : splitDot f with
  | nil =>
    left
    simp only [pathContrib, hsp]
  | cons h t =>
    rw [pathContrib_eq _ _ hsp] at hcf ⊢
    by_cases hk : h = k
    · subst hk
      rw [if_pos rfl] at hcf ⊢
      have hnull1 : (select_inner doc (h :: t)).isNull = true := by
        by_contra hn
        rw [if_neg hn] at hcf
        exact Option.noConfusion hcf
      cases doc with
      | obj m =>
        have hmget : mapGet m h = some v := by
          have hp : p₀ h = true := by
            by_contra hp
            rw [shorthandContrib_obj, if_neg hp] at hc₀
            exact Option.noConfusion hc₀
          rw [shorthandContrib_obj, if_pos hp,
            lastGet_eq_mapGet_of_pairwise_ne m h hnodup] at hc₀
          exact hc₀
        have hwparts : ∀ p ∈ (h :: t), strEndsWith p "[*]" = false := by
          intro p hp
          exact hw p (by rw [hsp]; exact hp)
        by_cases hstar : "*" ∈ (h :: t)
        · left
          rw [if_pos (by rw [select_inner_star_mem _ _ hwparts hstar]; rfl)]
        · have hnsw : NoStarWild (h :: t) :=
            fun s hs => ⟨fun he => hstar (by rw [← he]; exact hs), hwparts s hs⟩
          have hh := hnsw h (List.mem_cons_self _ _)
          have h1 : select_inner (.obj m) (h :: t) = select_inner v t := by
            rw [select_inner_obj_cons m h t hh.1 hh.2, hmget]
          have h2 : select_inner (.obj o') (h :: t) = select_inner v t := by
            rw [select_inner_obj_cons o' h t hh.1 hh.2, hget]
          rw [h1] at hnull1
          left
          rw [h2, if_pos hnull1]
      | null => exact Option.noConfusion hc₀
      | bool b => exact Option.noConfusion hc₀
      | num n => exact Option.noConfusion hc₀
      | str s => exact Option.noConfusion hc₀
      | arr xs => exact Option.noConfusion hc₀
    · left
      rw [if_neg hk]

theorem path_after_path {doc : Json} {f₀ f k : String} {v : Json}
    {o' : List (String × Json)} (hsort : SortedKeys o') (hget : mapGet o' k = some v)
    (hw₀ : WildFree f₀) (hw : WildFree f)
    (hc₀ : pathContrib doc f₀ k = some v)
    (hcf : pathContrib doc f k = none) :
    pathContrib (.obj o') f k = none ∨ pathContrib (.obj o') f k = some v := by
  cases hsp₀ : splitDot f₀ with
  | nil =>
    rw [show pathContrib doc f₀ k = none by simp only [pathContrib, hsp₀]] at hc₀
    exact Option.noConfusion hc₀
  | cons h₀ t₀ =>
    rw [pathContrib_eq _ _ hsp₀] at hc₀
    by_cases hk₀ : h₀ = k
    · subst hk₀
      rw [if_pos rfl] at hc₀
      by_cases hn₀ : (select_inner doc (h₀ :: t₀)).isNull = true
      · rw [if_pos hn₀] at hc₀
        exact Option.noConfusion hc₀
      · rw [if_neg hn₀] at hc₀
        have hv : v = nestParts t₀ (select_inner doc (h₀ :: t₀)) := (Option.some.inj hc₀).symm
        have hv₀nn : select_inner doc (h₀ :: t₀) ≠ .null := by
          intro he
          rw [he] at hn₀
          exact hn₀ rfl
        have hw₀parts : ∀ p ∈ (h₀ :: t₀), strEndsWith p "[*]" = false := by
          intro p hp
          exact hw₀ p (by rw [hsp₀]; exact hp)
        have hnsw₀ : NoStarWild (h₀ :: t₀) := noStarWild_of_select_ne_null hw₀parts hv₀nn
        have hnswt₀ : NoStarWild t₀ := fun s hs => hnsw₀ s (List.mem_cons_of_mem _ hs)
        cases hsp : splitDot f with
        | nil =>
          left
          simp only [pathContrib, hsp]
        | cons h t =>
          rw [pathContrib_eq _ _ hsp] at hcf ⊢
          by_cases hk : h = h₀
          · rw [hk] at hsp hcf ⊢
            rw [if_pos rfl] at hcf ⊢
            have hnull1 : (select_inner doc (h₀ :: t)).isNull = true := by
              by_contra hn
              rw [if_neg hn] at hcf
              exact Option.noConfusion hcf
            have hwparts : ∀ p ∈ (h₀ :: t), strEndsWith p "[*]" = false := by
              intro p hp
              exact hw p (by rw [hsp]; exact hp)
            by_cases hstar : "*" ∈ (h₀ :: t)
            · left
              rw [if_pos (by rw [select_inner_star_mem _ _ hwparts hstar]; rfl)]
            · have hnsw : NoStarWild (h₀ :: t) :=
                fun s hs => ⟨fun he => hstar (by rw [← he]; exact hs), hwparts s hs⟩
              have hnswt : NoStarWild t := fun s hs => hnsw s (List.mem_cons_of_mem _ hs)
              have h2 : select_inner (.obj o') (h₀ :: t) = select_inner v t := by
                rw [select_inner_obj_cons o' h₀ t (hnsw h₀ (List.mem_cons_self _ _)).1
                  (hnsw h₀ (List.mem_cons_self _ _)).2, hget]
              rcases segments_tricho t₀ t with ⟨r, hr⟩ | ⟨r, hrne, hr⟩ |
                ⟨c, a, b, p₁, q₁, hab, hpt₀, hpt⟩
              · cases r with
                | nil =>
                  right
                  have ht : t = t₀ := by simpa using hr
                  subst ht
                  have hsel : select_inner v t = select_inner doc (h₀ :: t) := by
                    rw [hv, select_nestParts_self t _ hnswt₀]
                  rw [h2, hsel, if_neg hn₀, ← hv]
                | cons rh rt =>
                  left
                  have hsel : select_inner v t = select_inner (select_inner doc (h₀ :: t₀))
                      (rh :: rt) := by
                    rw [hr, hv]
                    have hd := select_nestParts_descend t₀ [] (rh :: rt)
                      (select_inner doc (h₀ :: t₀)) hnswt₀
                    simpa using hd
                  have hcomp : select_inner doc (h₀ :: t)
                      = select_inner (select_inner doc (h₀ :: t₀)) (rh :: rt) := by
                    have heq : h₀ :: t = (h₀ :: t₀) ++ (rh :: rt) := by
                      rw [hr]
                      rfl
                    rw [heq, select_inner_append _ _ _ hnsw₀]
                  rw [hcomp] at hnull1
                  rw [if_pos (by rw [h2, hsel]; exact hnull1)]
              · cases r with
                | nil => exact absurd rfl hrne
                | cons rh rt =>
                  right
                  have hsel : select_inner v t
                      = nestParts (rh :: rt) (select_inner doc (h₀ :: t₀)) := by
                    rw [hv]
                    generalize select_inner doc (h₀ :: t₀) = X
                    rw [hr]
                    have hd := select_nestParts_descend t (rh :: rt) [] X hnswt
                    simpa using hd
                  have hnn : (nestParts (rh :: rt) (select_inner doc (h₀ :: t₀))).isNull
                      = false := by
                    rw [nestParts_cons]
                    rfl
                  rw [h2, hsel, if_neg (by rw [hnn]; exact Bool.noConfusion)]
                  rw [← nestParts_append, ← hr, ← hv]
              · left
                have hsubc : NoStarWild c := by
                  intro s hs
                  exact hnswt s (by rw [hpt]; exact List.mem_append_left _ hs)
                have hbmem : b ∈ t := by
                  rw [hpt]
                  exact List.mem_append_right _ (List.mem_cons_self _ _)
                have hbp := hnswt b hbmem
                have hsel : select_inner v t = .null := by
                  rw [hv]
                  generalize select_inner doc (h₀ :: t₀) = X
                  rw [hpt₀, hpt]
                  have hd := select_nestParts_descend c (a :: p₁) (b :: q₁) X hsubc
                  rw [hd]
                  exact select_nestParts_diverge a b p₁ q₁ X hbp hab
                rw [if_pos (by rw [h2, hsel]; rfl)]
          · left
            rw [if_neg hk]
    · rw [if_neg hk₀] at hc₀
      exact Option.noConfusion hc₀

theorem contribAt_out_none {o' : List (String × Json)} {f k : String}
    (hsort : SortedKeys o') (hget : mapGet o' k = none) (hw : WildFree f) :
    contribAt (.obj o') f k = none := by
  rw [contribAt]
  by_cases h1 : f = "@ids"
  · rw [if_pos h1]
    exact shorthandContrib_out_none hsort hget
  rw [if_neg h1]
  by_cases h2 : f = "@urls"
  · rw [if_pos h2]
    exact shorthandContrib_out_none hsort hget
  rw [if_neg h2]
  by_cases h3 : f = "@files"
  · rw [if_pos h3]
    exact shorthandContrib_out_none hsort hget
  rw [if_neg h3]
  by_cases h4 : f = "@thumbnails"
  · rw [if_pos h4]
    exact shorthandContrib_out_none hsort hget
  rw [if_neg h4]
  exact pathContrib_out_none hsort hget hw

theorem contribAt_out_self {doc : Json} {f k : String} {v : Json}
    {o' : List (String × Json)} (hsort : SortedKeys o') (hget : mapGet o' k = some v)
    (hw : WildFree f) (hc : contribAt doc f k = some v) :
    contribAt (.obj o') f k = some v := by
  rw [contribAt] at hc ⊢
  by_cases h1 : f = "@ids"
  · rw [if_pos h1] at hc ⊢
    exact shorthandContrib_out_self hsort hget hc
  rw [if_neg h1] at hc ⊢
  by_cases h2 : f = "@urls"
  · rw [if_pos h2] at hc ⊢
    exact shorthandContrib_out_self hsort hget hc
  rw [if_neg h2] at hc ⊢
  by_cases h3 : f = "@files"
  · rw [if_pos h3] at hc ⊢
    exact shorthandContrib_out_self hsort hget hc
  rw [if_neg h3] at hc ⊢
  by_cases h4 : f = "@thumbnails"
  · rw [if_pos h4] at hc ⊢
    exact shorthandContrib_out_self hsort hget hc
  rw [if_neg h4] at hc ⊢
  exact pathContrib_out_self hsort hget hw hc

theorem contribAt_out_after {doc : Json} {f₀ f k : String} {v : Json}
    {o' : List (String × Json)} (hsort : SortedKeys o') (hget : mapGet o' k = some v)
    (hnodup : TopNodup doc) (hw₀ : WildFree f₀) (hw : WildFree f)
    (hc₀ : contribAt doc f₀ k = some v) (hcf : contribAt doc f k = none) :
    contribAt (.obj o') f k = none ∨ contribAt (.obj o') f k = some v := by
  rw [contribAt] at hcf ⊢
  by_cases h1 : f = "@ids"
  · rw [if_pos h1] at hcf ⊢
    exact shorthandContrib_out_cases hsort hget
  rw [if_neg h1] at hcf ⊢
  by_cases h2 : f = "@urls"
  · rw [if_pos h2] at hcf ⊢
    exact shorthandContrib_out_cases hsort hget
  rw [if_neg h2] at hcf ⊢
  by_cases h3 : f = "@files"
  · rw [if_pos h3] at hcf ⊢
    exact shorthandContrib_out_cases hsort hget
  rw [if_neg h3] at hcf ⊢
  by_cases h4 : f = "@thumbnails"
  · rw [if_pos h4] at hcf ⊢
    exact shorthandContrib_out_cases hsort hget
  rw [if_neg h4] at hcf ⊢
  rw [contribAt] at hc₀
  by_cases g1 : f₀ = "@ids"
  · rw [if_pos g1] at hc₀
    exact path_after_shorthand hsort hget hnodup hw hc₀ hcf
  rw [if_neg g1] at hc₀
  by_cases g2 : f₀ = "@urls"
  · rw [if_pos g2] at hc₀
    exact path_after_shorthand hsort hget hnodup hw hc₀ hcf
  rw [if_neg g2] at hc₀
  by_cases g3 : f₀ = "@files"
  · rw [if_pos g3] at hc₀
    exact path_after_shorthand hsort hget hnodup hw hc₀ hcf
  rw [if_neg g3] at hc₀
  by_cases g4 : f₀ = "@thumbnails"
  · rw [if_pos g4] at hc₀
    exact path_after_shorthand hsort hget hnodup hw hc₀ hcf
  rw [if_neg g4] at hc₀
  exact path_after_path hsort hget hw₀ hw hc₀ hcf

theorem Gproj_stable {doc : Json} {S : List String} {o' : List (String × Json)}
    (hsort : SortedKeys o') (hchar : ∀ k, mapGet o' k = Gproj doc S k)
    (hwild : ∀ f ∈ S, WildFree f) (hnodup : TopNodup doc) (k : String) :
    Gproj (.obj o') S k = Gproj doc S k := by
  cases hG : Gproj doc S k with
  | none =>
    have hget : mapGet o' k = none := by rw [hchar k, hG]
    rw [Gproj]
    exact Gaux_of_forall_none (fun f hf => contribAt_out_none hsort hget (hwild f hf)) none
  | some v =>
    have hget : mapGet o' k = some v := by rw [hchar k, hG]
    rcases Gaux_decompose (show Gaux doc S k none = some v from hG) with
      ⟨A, f₀, B, hsplit, hc₀, hB⟩ | ⟨hinit, h2⟩
    · have hw₀ : WildFree f₀ := hwild f₀
        (by rw [hsplit]; exact List.mem_append_right _ (List.mem_cons_self _ _))
      rw [Gproj, hsplit, Gaux_append, Gaux_cons,
        contribAt_out_self hsort hget hw₀ hc₀]
      exact Gaux_preserve (fun f hf => contribAt_out_after hsort hget hnodup hw₀
        (hwild f (by rw [hsplit]; exact List.mem_append_right _ (List.mem_cons_of_mem _ hf)))
        hc₀ (hB f hf))
    · exact absurd hinit (by simp)

/-- C6 counterexample: with the wildcard selector list `["items[*].id"]`, the
    first projection of `{"items": [{"id": 1}]}` yields
    `{"items[*]": {"id": [1]}}`, but projecting that result again with the
    same list yields `{}` — projection is not idempotent on wildcard
    selectors, contradicting the claim's unconditional idempotence. -/
theorem C6_counterexample :
    project (.obj [("items", .arr [.obj [("id", .num 1)]])]) ["items[*].id"]
        = .obj [("items[*]", .obj [("id", .arr [.num 1])])] ∧
      project (.obj [("items[*]", .obj [("id", .arr [.num 1])])]) ["items[*].id"]
        = .obj [] ∧
      (Json.obj [] : Json) ≠ .obj [("items[*]", .obj [("id", .arr [.num 1])])] := by
  refine ⟨rfl, rfl, ?_⟩
  simp

/-- C6 as amended: projection IS idempotent for selector lists free of `@all`
    and of `[*]` wildcard segments (shorthands `@ids`/`@urls`/`@files`/
    `@thumbnails` and plain dotted paths), over any document whose top-level
    object keys are distinct (as every `serde_json` map's are):
    `project (project doc S) S = project doc S`. -/
theorem C6_amended (doc : Json) (S : List String)
    (hall : "@all" ∉ S) (hwild : ∀ f ∈ S, WildFree f) (hnodup : TopNodup doc) :
    project (project doc S) S = project doc S := by
  by_cases hne : S = []
  · subst hne
    rfl
  · obtain ⟨o', hp, hsort, hchar⟩ := project_obj_char doc S hne hall
    obtain ⟨o'', hp2, hsort2, hchar2⟩ := project_obj_char (.obj o') S hne hall
    rw [hp, hp2]
    congr 1
    apply sorted_map_ext hsort2 hsort
    intro k
    rw [hchar2 k, hchar k]
    exact Gproj_stable hsort hchar hwild hnodup k

/-- Witness for C6_amended at a concrete document and selector list mixing a
    dotted path with a shorthand. -/
theorem C6_amended_witness :
    ("@all" ∉ ["a.b", "@ids"]) ∧
      project (project (.obj [("a", .obj [("b", .num 1)]), ("id", .num 7)]) ["a.b", "@ids"])
          ["a.b", "@ids"]
        = project (.obj [("a", .obj [("b", .num 1)]), ("id", .num 7)]) ["a.b", "@ids"] :=
  ⟨by decide, C6_amended _ _ (by decide) (by decide) (by decide)⟩

end Pexels
